import Mathlib

/-!
Verification of the step-map (distance-field) engine of the micromouse
maze library, shallowly embedded from `src/src/StepMap.cpp`.

The grid collaborator (`Maze`, `Position`, `Direction`, `WallIndex`) is
declared in headers absent from `src/`; those parts are modelled from the
spec (sections 3 and 6) and follow the library's documented conventions:
cells are integer pairs inside an `n` by `n` field, walls are addressed by
a canonical `WallIndex` shared by both adjacent cells, and every wall on or
beyond the outer boundary is reported as present and known (the field is
sealed).  The algorithms of `StepMap.cpp` (`update`,
`getStepDownDirections`, `calcShortestDirections`,
`getNextDirectionCandidates`, `calcStraightCostTable`) are translated
directly from the source.

Machine integers: `step_t` is `uint16_t`; its arithmetic is modelled as
`Nat` with an explicit `% 65536` at the two places the source can wrap
(cost accumulation in `update`, cost subtraction in
`getStepDownDirections`).  Grid coordinates are `int8_t` in the source and
are modelled as `Int`; all coordinates that ever arise stay well inside
the `int8_t` range for any realistic maze size.
-/

namespace MazeLib

/-- Sentinel cost value: `STEP_MAX = std::numeric_limits<step_t>::max()`
for `step_t = uint16_t`. -/
def STEP_MAX : Nat := 65535

/-- Modelled from the spec: a cell coordinate, an integer pair inside a
fixed-size square grid (`Position` with `int8_t` members in the headers). -/
structure Pos where
  x : Int
  y : Int
deriving DecidableEq, Repr

/-- Modelled from the spec: `Position::isInsideOfField()` for a grid of
side `n` (`MAZE_SIZE`). -/
def Pos.isInsideOfField (n : Nat) (p : Pos) : Bool :=
  0 ≤ p.x && p.x < (n : Int) && 0 ≤ p.y && p.y < (n : Int)

/-- Directions are the library's 8-valued enumeration
(East = 0, NorthEast = 1, North = 2, ..., SouthEast = 7); `Direction::Max = 8`
is the out-of-band value used as an initial heading.  Relative turns are
Front = 0, Left = 2, Back = 4, Right = 6; composition masks with `& 7`. -/
abbrev Dir := Nat

/-- Modelled from the spec: `Direction` composition, `(d + r) & 7`. -/
def addDir (a b : Dir) : Dir := (a + b) % 8

/-- The four cardinal directions in the order of `Direction::Along4()`:
East, North, West, South. -/
def Along4 : List Dir := [0, 2, 4, 6]

/-- Modelled from the spec: `Position::next(d)`: move one cell in
direction `d`; unknown directions (such as `Direction::Max = 8`) leave the
position unchanged, as the source's `default:` branch does. -/
def posNext (p : Pos) (d : Dir) : Pos :=
  match d with
  | 0 => ⟨p.x + 1, p.y⟩
  | 1 => ⟨p.x + 1, p.y + 1⟩
  | 2 => ⟨p.x, p.y + 1⟩
  | 3 => ⟨p.x - 1, p.y + 1⟩
  | 4 => ⟨p.x - 1, p.y⟩
  | 5 => ⟨p.x - 1, p.y - 1⟩
  | 6 => ⟨p.x, p.y - 1⟩
  | 7 => ⟨p.x + 1, p.y - 1⟩
  | _ => p

/-- Modelled from the spec: a wall reference `(cell, side)` canonicalised:
`z = 0` is the wall on the East side of cell `(x, y)`, `z = 1` the wall on
its North side. -/
structure WallIndex where
  x : Int
  y : Int
  z : Nat
deriving DecidableEq, Repr

/-- Modelled from the spec: `WallIndex(Position, Direction)`: the canonical
index of the wall on side `d` of cell `p` (cardinal directions only). -/
def wallIndexOf (p : Pos) (d : Dir) : WallIndex :=
  match d with
  | 0 => ⟨p.x, p.y, 0⟩
  | 2 => ⟨p.x, p.y, 1⟩
  | 4 => ⟨p.x - 1, p.y, 0⟩
  | 6 => ⟨p.x, p.y - 1, 1⟩
  | _ => ⟨p.x, p.y, 0⟩

/-- Modelled from the spec: `WallIndex::isInsideOfField()`.  Only walls
strictly interior to the `n` by `n` field are stored; walls on the outer
boundary (and anything beyond) are outside the storable range. -/
def WallIndex.isInsideOfField (n : Nat) (w : WallIndex) : Bool :=
  !(w.x < 0 || w.y < 0 || w.x ≥ (n : Int) || w.y ≥ (n : Int) ||
    (w.x = (n : Int) - 1 && w.z = 0) || (w.y = (n : Int) - 1 && w.z = 1))

/-- Modelled from the spec (section 6): the grid collaborator.  `wall` and
`knownW` give the existence and knowledge bits of each storable wall;
`minX` .. `maxY` are the grid's currently-known occupied extent
(`getMinX()` etc.); `start` is the start cell. -/
structure Maze where
  wall : WallIndex → Bool
  knownW : WallIndex → Bool
  minX : Int
  maxX : Int
  minY : Int
  maxY : Int
  start : Pos

/-- Modelled from the spec: `Maze::isWall`: walls outside the storable
range (the sealed outer boundary) are reported as present. -/
def Maze.isWall (n : Nat) (m : Maze) (w : WallIndex) : Bool :=
  if w.isInsideOfField n then m.wall w else true

/-- Modelled from the spec: `Maze::isKnown`: walls outside the storable
range are reported as known. -/
def Maze.isKnown (n : Nat) (m : Maze) (w : WallIndex) : Bool :=
  if w.isInsideOfField n then m.knownW w else true

/-- Modelled from the spec: `Maze::unknownCount(p)`: the number of the four
cardinal walls of cell `p` whose state is unknown. -/
def Maze.unknownCount (n : Nat) (m : Maze) (p : Pos) : Nat :=
  (Along4.filter (fun d => !(m.isKnown n (wallIndexOf p d)))).length

/-- The wall on side `d` of `next` blocks the walk: present, or unknown
while `knownOnly` is set.  This is the condition of the `break` shared by
`StepMap::update` and `StepMap::getStepDownDirections`. -/
def blocked (n : Nat) (m : Maze) (knownOnly : Bool) (p : Pos) (d : Dir) : Bool :=
  m.isWall n (wallIndexOf p d) || (knownOnly && !(m.isKnown n (wallIndexOf p d)))

/-!  ## Cost model (`calcStraightCost`, `StepMap::calcStraightCostTable`)

The source computes the table in IEEE binary32 (`float`) arithmetic with
the constants `vs = 420`, `am = 4200`, `vm = 1500`, `seg = 90`,
`t_turn = 287` and truncates to `step_t`.  This embedding evaluates the
same closed-form expressions exactly: a distance of `i` cells is
`d = 90 * i`; the triangular branch applies while `am * d < vm^2 - vs^2`,
i.e. `378000 * i < 2073600`, and its truncated value
`floor(2 * (sqrt(vs^2 + am * d) - vs) / am * 1000)` equals
`(Nat.sqrt (2000^2 * (176400 + 378000 * i)) - 840000) / 4200`; the
trapezoid branch `floor((am * d + (vm - vs)^2) / (am * vm) * 1000)` equals
`((378000 * i + 1166400) * 1000) / 6300000`.  For every index `0 ≤ i < 32`
(the table size is `MAZE_SIZE`) the exact integer values coincide with the
float32 evaluation performed by the source. -/

/-- Newton iteration for the integer square root, with explicit fuel so
that the kernel can evaluate it (the fuel strictly bounds the number of
iterations and is never exhausted when called with fuel `n`). -/
def isqrtIter : Nat → Nat → Nat → Nat
  | 0, _, g => g
  | f + 1, n, g =>
    let next := (g + n / g) / 2
    if next < g then isqrtIter f n next else g

/-- Integer square root (largest `r` with `r * r ≤ n`), by Newton's method. -/
def isqrt (n : Nat) : Nat :=
  if n ≤ 1 then n else isqrtIter n n (n / 2)

/-- Cost of traversing `i` cell lengths in a straight line under the
trapezoidal velocity profile (`calcStraightCost` in the source), truncated
to an integer exactly as the source's `float` to `step_t` conversion does. -/
def calcStraightCost (i : Nat) : Nat :=
  if 378000 * i < 2073600 then
    (isqrt (2000 * 2000 * (176400 + 378000 * i)) - 840000) / 4200
  else
    ((378000 * i + 1166400) * 1000) / 6300000

/-- Modelled from the spec: the fixed scaling divisor applied to every
table entry (`scalingFactor` in the absent header; the library value is 2). -/
def scalingFactor : Nat := 2

/-- The straight-run cost table (`StepMap::calcStraightCostTable`): entry
`i >= 1` is the 90-degree-turn time `t_turn = 287` plus the straight cost
of `i - 1` cell lengths, stored in `step_t` and divided by the scaling
factor; entry 0 is unused and 0.  The source materialises entries
`0 .. stepTableSize - 1` with `stepTableSize = MAZE_SIZE`; this total
function agrees with the array at every stored index. -/
def stepTable (i : Nat) : Nat :=
  if i = 0 then 0 else ((287 + calcStraightCost (i - 1)) % 65536) / scalingFactor

/-!  ## Field solver (`StepMap::update`) -/

/-- The distance field (`stepMap` array), addressed by cell. -/
abbrev Field := Pos → Nat

/-- The all-sentinel field (`StepMap::reset`). -/
def resetField : Field := fun _ => STEP_MAX

/-- Write one cell of the field (`setStep` / `stepMap[...] = `). -/
def setStep (f : Field) (p : Pos) (v : Nat) : Field :=
  fun q => if q = p then v else f q

/-- The update queue: a min-priority queue of `(cell, tentative cost)`
entries (`std::priority_queue<Element>` with `s > e.s` as `operator<`),
modelled as a list kept sorted by ascending cost.  Entries of equal cost
keep insertion order; none of the results proved below depends on the pop
order among equal-cost entries. -/
def qpush (e : Pos × Nat) : List (Pos × Nat) → List (Pos × Nat)
  | [] => [e]
  | x :: xs => if x.2 ≤ e.2 then x :: qpush e xs else e :: x :: xs

/-- The bounding rectangle of `StepMap::update`: the known extent of the
maze extended to include every destination cell, then padded by one cell
on the low sides and two on the high sides. -/
structure Box where
  minX : Int
  maxX : Int
  minY : Int
  maxY : Int

/-- Compute the bounding rectangle from the maze extent and the
destination list (lines 140-150 of `StepMap.cpp`). -/
def calcBox (m : Maze) (dest : List Pos) : Box :=
  let mnx := dest.foldl (fun a p => min p.x a) m.minX
  let mxx := dest.foldl (fun a p => max p.x a) m.maxX
  let mny := dest.foldl (fun a p => min p.y a) m.minY
  let mxy := dest.foldl (fun a p => max p.y a) m.maxY
  ⟨mnx - 1, mxx + 2, mny - 1, mxy + 2⟩

/-- Whether a cell lies inside the bounding rectangle (the negation of the
`continue` test at lines 187-189). -/
def Box.contains (b : Box) (p : Pos) : Bool :=
  !(p.x > b.maxX || p.y > b.maxY || p.x < b.minX || p.y < b.minY)

/-- One straight-run expansion of `StepMap::update` (the inner
`for (int8_t i = 1;; ++i)` loop, lines 199-216): starting beside `next`,
walk in direction `d` while the wall ahead is absent (and known, under
`knownOnly`); at run length `i` the candidate cost is
`focus_step + (simple ? i : stepTable[i])` in `step_t` arithmetic; stop as
soon as the candidate fails to be strictly smaller than the target's
current value, otherwise write it and enqueue the target.  The walk fuel
only bounds the loop for arbitrary wall functions; a walk from an in-field
cell always stops at the sealed boundary within `n` steps. -/
def expandDir (n : Nat) (m : Maze) (knownOnly simple : Bool) (focus_step : Nat)
    (d : Dir) : Nat → Pos → Nat → Field × List (Pos × Nat) → Field × List (Pos × Nat)
  | 0, _, _, s => s
  | fuel + 1, next, i, (f, q) =>
    if blocked n m knownOnly next d then (f, q)
    else
      let next' := posNext next d
      let next_step := (focus_step + (if simple then i else stepTable i)) % 65536
      if f next' ≤ next_step then (f, q)
      else
        expandDir n m knownOnly simple focus_step d fuel next' (i + 1)
          (setStep f next' next_step, qpush (next', next_step) q)

/-- Expansion of one popped cell in all four cardinal directions
(lines 196-217). -/
def expandAll (n : Nat) (m : Maze) (knownOnly simple : Bool) (focus : Pos)
    (focus_step : Nat) (s : Field × List (Pos × Nat)) : Field × List (Pos × Nat) :=
  Along4.foldl (fun s d => expandDir n m knownOnly simple focus_step d (n + 2) focus 1 s) s

/-- The queue-draining loop of `StepMap::update` (lines 174-218): pop the
lowest-cost entry; discard it if the cell is outside the bounding
rectangle, or if the entry is stale (the cell's value has already been
improved below the entry's cost); otherwise expand it.  The fuel bounds
the number of pops; a run is complete when the returned queue is empty. -/
def updateLoop (n : Nat) (m : Maze) (knownOnly simple : Bool) (b : Box) :
    Nat → List (Pos × Nat) → Field → Field × List (Pos × Nat)
  | 0, q, f => (f, q)
  | _ + 1, [], f => (f, [])
  | fuel + 1, (p, s) :: q, f =>
    if !(b.contains p) then updateLoop n m knownOnly simple b fuel q f
    else if f p < s then updateLoop n m knownOnly simple b fuel q f
    else
      updateLoop n m knownOnly simple b fuel
        (expandAll n m knownOnly simple p (f p) (f, q)).2
        (expandAll n m knownOnly simple p (f p) (f, q)).1

/-- Seed the destinations (lines 165-172): every in-field destination cell
gets step 0 and is enqueued with priority 0; destinations outside the
field are skipped silently. -/
def seedDest (n : Nat) (dest : List Pos) : Field × List (Pos × Nat) :=
  dest.foldl
    (fun (s : Field × List (Pos × Nat)) p =>
      if p.isInsideOfField n then (setStep s.1 p 0, qpush (p, 0) s.2) else s)
    (resetField, [])

/-- `StepMap::update(maze, dest, knownOnly, simple)`: reset the field,
seed the destinations, and drain the queue.  Returns the final field
together with the remaining queue (empty iff the given fuel sufficed to
drain it, i.e. iff the run is the completed one of the source). -/
def update (n : Nat) (m : Maze) (dest : List Pos) (knownOnly simple : Bool)
    (fuel : Nat) : Field × List (Pos × Nat) :=
  updateLoop n m knownOnly simple (calcBox m dest) fuel (seedDest n dest).2 (seedDest n dest).1

/-!  ## The no-early-break variant of the solver (claim C2)

Modelled from the spec: the straight-run expansion that "continues
extending the run to the next wall": identical to `expandDir` except that
a candidate cost that fails to improve the target cell merely skips the
write and enqueue, instead of stopping the walk. -/

/-- Modelled from the spec: straight-run expansion without the early
break; the walk in a direction only stops at a wall (or at an unknown wall
under `knownOnly`). -/
def expandDirFull (n : Nat) (m : Maze) (knownOnly simple : Bool) (focus_step : Nat)
    (d : Dir) : Nat → Pos → Nat → Field × List (Pos × Nat) → Field × List (Pos × Nat)
  | 0, _, _, s => s
  | fuel + 1, next, i, (f, q) =>
    if blocked n m knownOnly next d then (f, q)
    else
      let next' := posNext next d
      let next_step := (focus_step + (if simple then i else stepTable i)) % 65536
      if f next' ≤ next_step then
        expandDirFull n m knownOnly simple focus_step d fuel next' (i + 1) (f, q)
      else
        expandDirFull n m knownOnly simple focus_step d fuel next' (i + 1)
          (setStep f next' next_step, qpush (next', next_step) q)

/-- Modelled from the spec: expansion of one popped cell, no early break. -/
def expandAllFull (n : Nat) (m : Maze) (knownOnly simple : Bool) (focus : Pos)
    (focus_step : Nat) (s : Field × List (Pos × Nat)) : Field × List (Pos × Nat) :=
  Along4.foldl (fun s d => expandDirFull n m knownOnly simple focus_step d (n + 2) focus 1 s) s

/-- Modelled from the spec: the queue-draining loop, with the no-break
expansion substituted. -/
def updateLoopFull (n : Nat) (m : Maze) (knownOnly simple : Bool) (b : Box) :
    Nat → List (Pos × Nat) → Field → Field × List (Pos × Nat)
  | 0, q, f => (f, q)
  | _ + 1, [], f => (f, [])
  | fuel + 1, (p, s) :: q, f =>
    if !(b.contains p) then updateLoopFull n m knownOnly simple b fuel q f
    else if f p < s then updateLoopFull n m knownOnly simple b fuel q f
    else
      updateLoopFull n m knownOnly simple b fuel
        (expandAllFull n m knownOnly simple p (f p) (f, q)).2
        (expandAllFull n m knownOnly simple p (f p) (f, q)).1

/-- Modelled from the spec: `update` with the no-break expansion. -/
def updateFull (n : Nat) (m : Maze) (dest : List Pos) (knownOnly simple : Bool)
    (fuel : Nat) : Field × List (Pos × Nat) :=
  updateLoopFull n m knownOnly simple (calcBox m dest) fuel (seedDest n dest).2
    (seedDest n dest).1

/-!  ## Path extractor (`StepMap::getStepDownDirections`) -/

/-- A pose: cell and heading (`Pose`).  `Pose::next(d)` moves the cell in
direction `d` and sets the heading to `d`. -/
structure Pose where
  p : Pos
  d : Dir
deriving DecidableEq, Repr

/-- `Pose::next`. -/
def Pose.next (e : Pose) (d : Dir) : Pose := ⟨posNext e.p d, d⟩

/-- The per-direction scan of `getStepDownDirections` (lines 264-278):
walk straight in direction `d` from `focus` while unobstructed; at run
length `i` the predecessor-consistent value is
`focus_step - (simple ? i : stepTable[i])` in `step_t` arithmetic; return
the first target cell whose recorded value matches exactly, together with
the run length.  The walk fuel only bounds the loop for arbitrary wall
functions (the sealed boundary stops any walk from an in-field cell). -/
def scanDir (n : Nat) (m : Maze) (f : Field) (knownOnly simple : Bool)
    (focus_step : Nat) (d : Dir) : Nat → Pos → Nat → Option (Pos × Nat)
  | 0, _, _ => none
  | fuel + 1, next, i =>
    if blocked n m knownOnly next d then none
    else
      let next' := posNext next d
      let next_step := (focus_step + 65536 - (if simple then i else stepTable i)) % 65536
      if f next' = next_step then some (next', i)
      else scanDir n m f knownOnly simple focus_step d fuel next' (i + 1)

/-- Scan the four cardinal directions in order and take the first exact
match (`goto loop_exit`, lines 263-279); returns the matched cell, its
direction and the run length. -/
def scanDirs (n : Nat) (m : Maze) (f : Field) (knownOnly simple : Bool)
    (focus_step : Nat) (focus : Pos) : Option (Pos × Dir × Nat) :=
  Along4.foldr
    (fun d acc =>
      match scanDir n m f knownOnly simple focus_step d (n + 2) focus 1 with
      | some (p, i) => some (p, d, i)
      | none => acc)
    none

/-- The inner advancement loop (lines 284-289): move `k` cells in
direction `d`, appending `d` for each move; under `breakUnknown`, stop
before advancing past any cell that touches a wall of unknown state.  The
returned flag records whether the walk stopped early.  The source writes
this as `while (focus.p != min_p)`; since the matched cell lies exactly
`k` straight moves away, the two forms coincide. -/
def advance (n : Nat) (m : Maze) (breakUnknown : Bool) (d : Dir) :
    Nat → Pose → List Dir × Pose × Bool
  | 0, focus => ([], focus, false)
  | k + 1, focus =>
    if breakUnknown && m.unknownCount n focus.p ≠ 0 then ([], focus, true)
    else
      (d :: (advance n m breakUnknown d k (focus.next d)).1,
       (advance n m breakUnknown d k (focus.next d)).2)

/-- The descent loop of `getStepDownDirections` (lines 256-290): while the
current cell's value is nonzero, find the first predecessor-consistent
straight run and walk it; stop when no direction matches or the match
fails to decrease the value (the INCONSISTENT stop), or when
`breakUnknown` halts the advancement.  The fuel bounds the number of
outer iterations; each completed iteration strictly decreases the current
cell's value, so fuel `STEP_MAX + 1` always suffices. -/
def descendLoop (n : Nat) (m : Maze) (f : Field) (knownOnly simple breakUnknown : Bool) :
    Nat → Pose → List Dir × Pose
  | 0, focus => ([], focus)
  | fuel + 1, focus =>
    if f focus.p = 0 then ([], focus)
    else
      match scanDirs n m f knownOnly simple (f focus.p) focus.p with
      | none => ([], focus)
      | some r =>
        if f focus.p ≤ f r.1 then ([], focus)
        else
          if (advance n m breakUnknown r.2.1 r.2.2 focus).2.2 then
            ((advance n m breakUnknown r.2.1 r.2.2 focus).1,
             (advance n m breakUnknown r.2.1 r.2.2 focus).2.1)
          else
            ((advance n m breakUnknown r.2.1 r.2.2 focus).1 ++
              (descendLoop n m f knownOnly simple breakUnknown fuel
                (advance n m breakUnknown r.2.1 r.2.2 focus).2.1).1,
             (descendLoop n m f knownOnly simple breakUnknown fuel
               (advance n m breakUnknown r.2.1 r.2.2 focus).2.1).2)

/-- `StepMap::getStepDownDirections`: returns the direction sequence and
the final pose; a start outside the field returns immediately. -/
def getStepDownDirections (n : Nat) (m : Maze) (f : Field)
    (start : Pose) (knownOnly simple breakUnknown : Bool) (fuel : Nat) :
    List Dir × Pose :=
  if !(start.p.isInsideOfField n) then ([], start)
  else descendLoop n m f knownOnly simple breakUnknown fuel start

/-- `StepMap::calcShortestDirections`: solve, fully descend from
`(start, Direction::Max)`, and return the sequence only if the descent
ended on a cell of value 0. -/
def calcShortestDirections (n : Nat) (m : Maze) (start : Pos) (dest : List Pos)
    (knownOnly simple : Bool) (ufuel dfuel : Nat) : List Dir :=
  let f := (update n m dest knownOnly simple ufuel).1
  let r := getStepDownDirections n m f ⟨start, 8⟩ knownOnly simple false dfuel
  if f r.2.p = 0 then r.1 else []

/-!  ## Frontier heuristic (`StepMap::getNextDirectionCandidates`) -/

/-- Modelled from the spec: `StepMap::getStep(p)`: the field value of an
in-field cell, `STEP_MAX` outside. -/
def getStep (n : Nat) (f : Field) (p : Pos) : Nat :=
  if p.isInsideOfField n then f p else STEP_MAX

/-- One step of insertion sort, on the sorted prefix held in reversed
order: the new element `x` bubbles left (here: down the reversed list)
past every element `y` with `cmp x y`, and stops at the first failure,
exactly as libstdc++'s `__unguarded_linear_insert` does. -/
def bubbleRev (cmp : α → α → Bool) (x : α) : List α → List α
  | [] => [x]
  | y :: ys => if cmp x y then y :: bubbleRev cmp x ys else x :: y :: ys

/-- Insertion sort with a `Bool` comparator, processing elements left to
right.  The source calls `std::sort` on a vector of at most 4 directions,
which libstdc++ performs by insertion sort; this model reproduces that
behavior element for element, including for the move-to-front comparator
`d1 == focus.d` of the third sort, which is not a strict weak order. -/
def insSort (cmp : α → α → Bool) (l : List α) : List α :=
  (l.foldl (fun racc x => bubbleRev cmp x racc) []).reverse

/-- The candidate extraction of `getNextDirectionCandidates`
(lines 334-338): of the relative directions Front, Left, Right, Back (in
that base order), those with no wall and a finite target value. -/
def candidateDirs (n : Nat) (m : Maze) (f : Field) (focus : Pose) : List Dir :=
  [addDir focus.d 0, addDir focus.d 2, addDir focus.d 6, addDir focus.d 4].filter fun d =>
    !(m.isWall n (wallIndexOf focus.p d)) && getStep n f (posNext focus.p d) ≠ STEP_MAX

/-- `StepMap::getNextDirectionCandidates` (lines 330-359): the candidate
directions, sorted ascending by target value, then unknown-adjacent
targets first, then the current heading first. -/
def getNextDirectionCandidates (n : Nat) (m : Maze) (f : Field) (focus : Pose) :
    List Dir :=
  let s1 := insSort
    (fun d1 d2 => getStep n f (posNext focus.p d1) < getStep n f (posNext focus.p d2))
    (candidateDirs n m f focus)
  let s2 := insSort
    (fun d1 d2 =>
      m.unknownCount n (posNext focus.p d1) ≠ 0 && m.unknownCount n (posNext focus.p d2) = 0) s1
  insSort (fun d1 _ => d1 = focus.d) s2

/-!  ## Path semantics

The cost model of the spec: a path is a sequence of cardinal moves
through absent walls (known ones only, under `knownOnly`); its cost is the
sum over its maximal straight runs of `runLength` (simple cost) or
`costTable[runLength]`. -/

/-- The cell reached from `p` by following the moves `ds`. -/
def endPos (p : Pos) (ds : List Dir) : Pos := ds.foldl posNext p

/-- A valid path: every move is cardinal and passes a wall that is absent
(and known, under `knownOnly`). -/
def pathOk (n : Nat) (m : Maze) (knownOnly : Bool) : Pos → List Dir → Bool
  | _, [] => true
  | p, d :: ds =>
    Along4.contains d && !(blocked n m knownOnly p d) &&
      pathOk n m knownOnly (posNext p d) ds

/-- Accumulated cost of the remaining moves, given the direction and
length of the currently open straight run. -/
def runCostAux (simple : Bool) : List Dir → Dir → Nat → Nat
  | [], _, len => if simple then len else stepTable len
  | d :: ds, cur, len =>
    if d = cur then runCostAux simple ds cur (len + 1)
    else (if simple then len else stepTable len) + runCostAux simple ds d 1

/-- Cost of a path: the sum over its maximal straight runs of the run
length (simple cost) or of the cost-table entry for the run length. -/
def runCost (simple : Bool) : List Dir → Nat
  | [] => 0
  | d :: ds => runCostAux simple ds d 1

/-- The cells from which the moves of a path depart (every cell of the
path except the final one). -/
def pathOrigins (p : Pos) : List Dir → List Pos
  | [] => []
  | d :: ds => p :: pathOrigins (posNext p d) ds

/-- A cell is reachable when some valid path leads to it from an in-field
destination. -/
def reachable (n : Nat) (m : Maze) (knownOnly : Bool) (dest : List Pos) (c : Pos) : Prop :=
  ∃ p ds, p ∈ dest ∧ Pos.isInsideOfField n p = true ∧
    pathOk n m knownOnly p ds = true ∧ endPos p ds = c

/-!  ## Solver invariants (used by the proofs about `update`) -/

/-- The in-field cells, as a finite set. -/
def cells (n : Nat) : Finset Pos :=
  ((Finset.Icc (0 : Int) ((n : Int) - 1)) ×ˢ (Finset.Icc (0 : Int) ((n : Int) - 1))).image
    fun ab => ⟨ab.1, ab.2⟩

/-- The number of in-field cells whose field value is finite. -/
def cnt (n : Nat) (f : Field) : Nat :=
  ((cells n).filter fun c => f c ≠ STEP_MAX).card

/-- One-step relaxation stability of a cell: stepping through any open
cardinal wall increases the field value by at most 1 (the simple-cost
edge weight). -/
def sat1 (n : Nat) (m : Maze) (knownOnly : Bool) (f : Field) (c : Pos) : Prop :=
  ∀ d ∈ Along4, blocked n m knownOnly c d = false → f (posNext c d) ≤ f c + 1

/-- The solver invariant, for the simple-cost runs of `update`: values
outside the field are sentinel; queue entries are in-field with a key at
least the cell's current value and below the sentinel; finite values are
bounded by `(n + 2)` per finite cell (which keeps `step_t` arithmetic away
from overflow for `n ≤ 32`); every finite in-field cell is either
one-step relaxed or still enqueued at its current value (except for an
optional cell `ex`, the one being expanded); every finite value is
realised by a valid path from a destination; destinations hold 0. -/
structure SolveInvE (n : Nat) (m : Maze) (dest : List Pos) (knownOnly : Bool)
    (ex : Option Pos) (f : Field) (q : List (Pos × Nat)) : Prop where
  out_sentinel : ∀ c : Pos, Pos.isInsideOfField n c = false → f c = STEP_MAX
  le_max : ∀ c : Pos, f c ≤ STEP_MAX
  queue_ok : ∀ e ∈ q, Pos.isInsideOfField n (Prod.fst e) = true ∧
    f (Prod.fst e) ≤ Prod.snd e ∧ Prod.snd e < STEP_MAX
  bounded : ∀ c : Pos, Pos.isInsideOfField n c = true → f c ≠ STEP_MAX →
    f c ≤ (n + 2) * cnt n f
  relaxed : ∀ c : Pos, Pos.isInsideOfField n c = true → f c ≠ STEP_MAX →
    some c ≠ ex → sat1 n m knownOnly f c ∨ (c, f c) ∈ q
  sound : ∀ c : Pos, f c ≠ STEP_MAX →
    ∃ p ds, p ∈ dest ∧ Pos.isInsideOfField n p = true ∧
      pathOk n m knownOnly p ds = true ∧ endPos p ds = c ∧ List.length ds = f c

/-- The solver invariant with no excused cell. -/
def SolveInv (n : Nat) (m : Maze) (dest : List Pos) (knownOnly : Bool)
    (f : Field) (q : List (Pos × Nat)) : Prop :=
  SolveInvE n m dest knownOnly none f q

/-!  ## Concrete mazes used by the claims -/

/-- A 4 by 4 grid with every wall absent and known; the extent covers the
whole grid. -/
def openMaze4 : Maze :=
  { wall := fun _ => false, knownW := fun _ => true,
    minX := 0, maxX := 3, minY := 0, maxY := 3, start := ⟨0, 0⟩ }

/-- The walls that are absent in `cexMaze`: a corridor `(1,0) - (1,1) -
(2,1) - (3,1)` (one turn) and a corridor `(2,4) - (2,3) - (2,2) - (2,1)`
(straight), meeting at `(2,1)`. -/
def cexOpen : List WallIndex :=
  [⟨1, 0, 1⟩, ⟨1, 1, 0⟩, ⟨2, 1, 0⟩, ⟨2, 3, 1⟩, ⟨2, 2, 1⟩, ⟨2, 1, 1⟩]

/-- A 6 by 6 maze, fully known, on which the early-break solve and the
walk-to-wall variant produce different fields at `(3,1)`. -/
def cexMaze : Maze :=
  { wall := fun w => !(cexOpen.contains w), knownW := fun _ => true,
    minX := 0, maxX := 5, minY := 0, maxY := 5, start := ⟨1, 0⟩ }

/-- The destination set used with `cexMaze`: `(1,0)` and `(2,4)`. -/
def cexDest : List Pos := [⟨1, 0⟩, ⟨2, 4⟩]

/-- A 4 by 4 maze for claim C4: only the wall between `(0,0)` and `(1,0)`
is absent; every wall is known except the north wall of `(0,0)`, which is
present but unknown.  The goal cell `(0,0)` is then the only cell on the
descent path from `(1,0)` that touches an unknown wall. -/
def mzC4 : Maze :=
  { wall := fun w => !(w = ⟨0, 0, 0⟩), knownW := fun w => !(w = ⟨0, 0, 1⟩),
    minX := 0, maxX := 3, minY := 0, maxY := 3, start := ⟨1, 0⟩ }

/-- A 4 by 4 maze for claim C7: the east and north walls of `(1,1)` are
absent and known; every wall is known except the north wall of `(1,2)`,
so of the two equal-cost targets `(2,1)` and `(1,2)` of cell `(1,1)`,
only `(1,2)` touches an unknown wall. -/
def mzC7 : Maze :=
  { wall := fun w => !([(⟨1, 1, 0⟩ : WallIndex), ⟨1, 1, 1⟩].contains w),
    knownW := fun w => !(w = ⟨1, 2, 1⟩),
    minX := 0, maxX := 3, minY := 0, maxY := 3, start := ⟨0, 0⟩ }

/-- A field for claim C7: the two targets of `(1,1)` hold the equal value
143, `(1,1)` holds 286, everything else the sentinel. -/
def fC7 : Field :=
  fun p => if p = ⟨2, 1⟩ ∨ p = ⟨1, 2⟩ then 143 else if p = ⟨1, 1⟩ then 286 else STEP_MAX

/-- A 4 by 4 maze for claim C5: every wall absent; only the two interior
walls of cell `(0,0)` are known, so the known extent is the single cell
`(0,0)`. -/
def cornerMaze4 : Maze :=
  { wall := fun _ => false,
    knownW := fun w => w = ⟨0, 0, 0⟩ || w = ⟨0, 0, 1⟩,
    minX := 0, maxX := 0, minY := 0, maxY := 0, start := ⟨0, 0⟩ }

/-!  # Theorems -/

/-!  ## Claim C8: cost-table monotonicity and entry 1 -/

/-- C8: the precomputed cost table is monotonically non-decreasing, for
every run length `i` with `1 <= i` and `i + 1 < stepTableSize` (the table
size is `MAZE_SIZE = 32` in the library), and entry 1 equals the fixed
90-degree-turn time constant 287 divided by the scaling divisor. -/
theorem C8_costTable_monotone_entry1 :
    (∀ i : Nat, 1 ≤ i → i + 1 < 32 → stepTable i ≤ stepTable (i + 1)) ∧
    stepTable 1 = 287 / scalingFactor := by
  refine ⟨?_, by decide⟩
  have h : ∀ j < 31, stepTable (j + 1) ≤ stepTable (j + 2) := by decide
  intro i h1 h2
  have h3 := h (i - 1) (by omega)
  have h4 : i - 1 + 1 = i := by omega
  have h5 : i - 1 + 2 = i + 1 := by omega
  rw [h4, h5] at h3
  exact h3

/-- Witness for C8 at `i = 1`: `costTable[1] = 143 <= 220 = costTable[2]`. -/
theorem C8_costTable_monotone_entry1_witness :
    1 ≤ 1 ∧ 1 + 1 < 32 ∧ stepTable 1 ≤ stepTable 2 :=
  ⟨by decide, by decide, C8_costTable_monotone_entry1.1 1 (by decide) (by decide)⟩

/-!  ## Claim C9: descent from an out-of-field start -/

/-- C9: a descent whose start cell is outside the valid grid extent
returns the empty direction sequence immediately, for every maze, field
and flag combination (so in particular without consulting the field or
the walls). -/
theorem C9_descend_out_of_field (n : Nat) (m : Maze) (f : Field) (start : Pose)
    (knownOnly simple breakUnknown : Bool) (fuel : Nat)
    (h : Pos.isInsideOfField n start.p = false) :
    getStepDownDirections n m f start knownOnly simple breakUnknown fuel = ([], start) := by
  simp [getStepDownDirections, h]

/-- Witness for C9: start `(-1, 0)` in a 4 by 4 grid. -/
theorem C9_descend_out_of_field_witness :
    Pos.isInsideOfField 4 (⟨-1, 0⟩ : Pos) = false ∧
    getStepDownDirections 4 openMaze4 resetField ⟨⟨-1, 0⟩, 0⟩ false false false 100 =
      ([], ⟨⟨-1, 0⟩, 0⟩) :=
  ⟨by decide,
   C9_descend_out_of_field 4 openMaze4 resetField ⟨⟨-1, 0⟩, 0⟩ false false false 100 (by decide)⟩

/-!  ## Claim C10: all destinations outside the field -/

/-- The queue-draining loop does nothing on an empty queue. -/
theorem updateLoop_nil (n : Nat) (m : Maze) (knownOnly simple : Bool) (b : Box)
    (fuel : Nat) (f : Field) :
    updateLoop n m knownOnly simple b fuel [] f = (f, []) := by
  cases fuel <;> rfl

/-- Seeding skips every out-of-field destination. -/
theorem seedDest_all_out (n : Nat) (dest : List Pos)
    (h : ∀ p ∈ dest, Pos.isInsideOfField n p = false) :
    seedDest n dest = (resetField, []) := by
  unfold seedDest
  suffices hgen : ∀ s : Field × List (Pos × Nat),
      dest.foldl
        (fun (s : Field × List (Pos × Nat)) p =>
          if Pos.isInsideOfField n p then (setStep s.1 p 0, qpush (p, 0) s.2) else s)
        s = s from hgen _
  induction dest with
  | nil => intro s; rfl
  | cons p ps ih =>
    intro s
    have hp : Pos.isInsideOfField n p = false := h p (by simp)
    simp only [List.foldl_cons, hp, Bool.false_eq_true, if_false]
    exact ih (fun q hq => h q (by simp [hq])) s

/-- C10: if every destination lies outside the field, `update` terminates
immediately with the all-sentinel field and an empty queue; the
destinations are skipped silently. -/
theorem C10_all_destinations_outside (n : Nat) (m : Maze) (dest : List Pos)
    (knownOnly simple : Bool) (fuel : Nat)
    (h : ∀ p ∈ dest, Pos.isInsideOfField n p = false) :
    (∀ c : Pos, (update n m dest knownOnly simple fuel).1 c = STEP_MAX) ∧
    (update n m dest knownOnly simple fuel).2 = [] := by
  unfold update
  rw [seedDest_all_out n dest h]
  rw [updateLoop_nil]
  exact ⟨fun c => rfl, rfl⟩

/-- Witness for C10: the single destination `(-1, -1)` in a 4 by 4 grid. -/
theorem C10_all_destinations_outside_witness :
    (∀ p ∈ [(⟨-1, -1⟩ : Pos)], Pos.isInsideOfField 4 p = false) ∧
    (∀ c : Pos, (update 4 openMaze4 [⟨-1, -1⟩] false false 50).1 c = STEP_MAX) ∧
    (update 4 openMaze4 [⟨-1, -1⟩] false false 50).2 = [] := by
  have h : ∀ p ∈ [(⟨-1, -1⟩ : Pos)], Pos.isInsideOfField 4 p = false := by decide
  have h2 := C10_all_destinations_outside 4 openMaze4 [⟨-1, -1⟩] false false 50 h
  exact ⟨h, h2.1, h2.2⟩

/-!  ## Claim C3: the open 4 by 4 grid -/

/-- C3 (counterexample): on the open 4 by 4 grid with the single
destination `(0, 0)` and physical costs, the completed solve gives cell
`(3, 0)` the value `costTable[3] = 273`, which differs from
`costTable[4] = 316` asserted by the claim (the run from `(0, 0)` to
`(3, 0)` traverses 3 cells, not 4). -/
theorem C3_counterexample :
    (update 4 openMaze4 [⟨0, 0⟩] false false 200).2 = [] ∧
    (update 4 openMaze4 [⟨0, 0⟩] false false 200).1 ⟨0, 0⟩ = 0 ∧
    (update 4 openMaze4 [⟨0, 0⟩] false false 200).1 ⟨3, 0⟩ = 273 ∧
    stepTable 4 = 316 ∧
    (update 4 openMaze4 [⟨0, 0⟩] false false 200).1 ⟨3, 0⟩ ≠ stepTable 4 := by
  refine ⟨by decide, by decide, by decide, by decide, by decide⟩

/-- C3 (amended): on the open 4 by 4 grid with destination `(0, 0)` and
physical costs, the field value at `(0, 0)` is 0 and the value at
`(3, 0)` is `costTable[3]`, the table entry for the 3-cell straight run. -/
theorem C3_amended :
    (update 4 openMaze4 [⟨0, 0⟩] false false 200).2 = [] ∧
    (update 4 openMaze4 [⟨0, 0⟩] false false 200).1 ⟨0, 0⟩ = 0 ∧
    (update 4 openMaze4 [⟨0, 0⟩] false false 200).1 ⟨3, 0⟩ = stepTable 3 := by
  refine ⟨by decide, by decide, by decide⟩

/-!  ## Claim C6: emptiness condition of `calcShortestDirections` -/

/-- C6 (counterexample): with start equal to the destination `(0, 0)` on
the open 4 by 4 grid, `calcShortestDirections` returns the empty sequence
even though the descent ends on a cell whose field value is 0, so the
returned sequence being empty is not equivalent to the descent ending on
a nonzero cell. -/
theorem C6_counterexample :
    calcShortestDirections 4 openMaze4 ⟨0, 0⟩ [⟨0, 0⟩] false false 200 100 = [] ∧
    (update 4 openMaze4 [⟨0, 0⟩] false false 200).1
      (getStepDownDirections 4 openMaze4 (update 4 openMaze4 [⟨0, 0⟩] false false 200).1
        ⟨⟨0, 0⟩, 8⟩ false false false 100).2.p = 0 := by
  refine ⟨by decide, by decide⟩

/-- C6 (amended): `calcShortestDirections` returns exactly the descent
sequence when the descent from the start ends on a cell of field value 0,
and the empty sequence otherwise; consequently its result is empty iff
the descent ends on a nonzero cell or the descent sequence is itself
empty (as happens when the start is already a destination). -/
theorem C6_amended (n : Nat) (m : Maze) (start : Pos) (dest : List Pos)
    (knownOnly simple : Bool) (ufuel dfuel : Nat) :
    (calcShortestDirections n m start dest knownOnly simple ufuel dfuel =
      if (update n m dest knownOnly simple ufuel).1
          (getStepDownDirections n m (update n m dest knownOnly simple ufuel).1
            ⟨start, 8⟩ knownOnly simple false dfuel).2.p = 0
       then (getStepDownDirections n m (update n m dest knownOnly simple ufuel).1
          ⟨start, 8⟩ knownOnly simple false dfuel).1
       else []) ∧
    (calcShortestDirections n m start dest knownOnly simple ufuel dfuel = [] ↔
      ((update n m dest knownOnly simple ufuel).1
          (getStepDownDirections n m (update n m dest knownOnly simple ufuel).1
            ⟨start, 8⟩ knownOnly simple false dfuel).2.p ≠ 0 ∨
       (getStepDownDirections n m (update n m dest knownOnly simple ufuel).1
          ⟨start, 8⟩ knownOnly simple false dfuel).1 = [])) := by
  constructor
  · rfl
  · unfold calcShortestDirections
    by_cases h : (update n m dest knownOnly simple ufuel).1
        (getStepDownDirections n m (update n m dest knownOnly simple ufuel).1
          ⟨start, 8⟩ knownOnly simple false dfuel).2.p = 0
    · simp [h]
    · simp [h]

/-!  ## Claim C5: destinations relative to the known extent -/

/-- Folding `min` over a list only decreases the accumulator. -/
theorem foldl_min_le_init (g : Pos → Int) (l : List Pos) (a : Int) :
    l.foldl (fun a p => min (g p) a) a ≤ a := by
  induction l generalizing a with
  | nil => simp
  | cons p ps ih =>
    simp only [List.foldl_cons]
    exact le_trans (ih (min (g p) a)) (min_le_right _ _)

/-- The folded minimum is at most each list element's key. -/
theorem foldl_min_le (g : Pos → Int) (l : List Pos) (a : Int) (q : Pos) (hq : q ∈ l) :
    l.foldl (fun a p => min (g p) a) a ≤ g q := by
  induction l generalizing a with
  | nil => cases hq
  | cons p ps ih =>
    simp only [List.foldl_cons]
    rcases List.mem_cons.mp hq with h | h
    · subst h
      exact le_trans (foldl_min_le_init g ps _) (min_le_left _ _)
    · exact ih _ h

/-- Folding `max` over a list only increases the accumulator. -/
theorem le_foldl_max_init (g : Pos → Int) (l : List Pos) (a : Int) :
    a ≤ l.foldl (fun a p => max (g p) a) a := by
  induction l generalizing a with
  | nil => simp
  | cons p ps ih =>
    simp only [List.foldl_cons]
    exact le_trans (le_max_right _ _) (ih (max (g p) a))

/-- The folded maximum is at least each list element's key. -/
theorem le_foldl_max (g : Pos → Int) (l : List Pos) (a : Int) (q : Pos) (hq : q ∈ l) :
    g q ≤ l.foldl (fun a p => max (g p) a) a := by
  induction l generalizing a with
  | nil => cases hq
  | cons p ps ih =>
    simp only [List.foldl_cons]
    rcases List.mem_cons.mp hq with h | h
    · subst h
      exact le_trans (le_max_left _ _) (le_foldl_max_init g ps _)
    · exact ih _ h

/-- Every destination lies inside the bounding rectangle that `update`
derives: the box is the extent extended to include each destination, then
padded outward. -/
theorem dest_mem_box (m : Maze) (dest : List Pos) (q : Pos) (hq : q ∈ dest) :
    (calcBox m dest).contains q = true := by
  have hx1 : List.foldl (fun a p => min p.x a) m.minX dest ≤ q.x :=
    foldl_min_le (fun p => p.x) dest m.minX q hq
  have hx2 : q.x ≤ List.foldl (fun a p => max p.x a) m.maxX dest :=
    le_foldl_max (fun p => p.x) dest m.maxX q hq
  have hy1 : List.foldl (fun a p => min p.y a) m.minY dest ≤ q.y :=
    foldl_min_le (fun p => p.y) dest m.minY q hq
  have hy2 : q.y ≤ List.foldl (fun a p => max p.y a) m.maxY dest :=
    le_foldl_max (fun p => p.y) dest m.maxY q hq
  simp only [calcBox, Box.contains, Bool.not_eq_true', Bool.or_eq_false_iff,
    decide_eq_false_iff_not, not_lt, not_le]
  omega

/-- One expansion step never increases any field value. -/
theorem expandDir_le (n : Nat) (m : Maze) (knownOnly simple : Bool) (focus_step : Nat)
    (d : Dir) :
    ∀ (fuel : Nat) (next : Pos) (i : Nat) (s : Field × List (Pos × Nat)) (c : Pos),
      (expandDir n m knownOnly simple focus_step d fuel next i s).1 c ≤ s.1 c := by
  intro fuel
  induction fuel with
  | zero => intro next i s c; exact le_refl _
  | succ fuel ih =>
    intro next i s c
    obtain ⟨f, q⟩ := s
    simp only [expandDir]
    by_cases hb : blocked n m knownOnly next d
    · simp [hb]
    · simp only [hb, Bool.false_eq_true, if_false]
      by_cases hle : f (posNext next d) ≤ (focus_step + (if simple then i else stepTable i)) % 65536
      · simp [hle]
      · simp only [hle, if_false]
        refine le_trans (ih _ _ _ c) ?_
        simp only [setStep]
        by_cases hc : c = posNext next d
        · simp [hc]; omega
        · simp [hc]

/-- A whole-cell expansion never increases any field value. -/
theorem expandAll_le (n : Nat) (m : Maze) (knownOnly simple : Bool) (focus : Pos)
    (focus_step : Nat) (s : Field × List (Pos × Nat)) (c : Pos) :
    (expandAll n m knownOnly simple focus focus_step s).1 c ≤ s.1 c := by
  simp only [expandAll, Along4]
  obtain ⟨f, q⟩ := s
  simp only [List.foldl_cons, List.foldl_nil]
  refine le_trans (expandDir_le n m knownOnly simple focus_step 6 _ _ _ _ c) ?_
  refine le_trans (expandDir_le n m knownOnly simple focus_step 4 _ _ _ _ c) ?_
  refine le_trans (expandDir_le n m knownOnly simple focus_step 2 _ _ _ _ c) ?_
  exact expandDir_le n m knownOnly simple focus_step 0 _ _ _ _ c

/-- The queue-draining loop never increases any field value. -/
theorem updateLoop_le (n : Nat) (m : Maze) (knownOnly simple : Bool) (b : Box) :
    ∀ (fuel : Nat) (q : List (Pos × Nat)) (f : Field) (c : Pos),
      (updateLoop n m knownOnly simple b fuel q f).1 c ≤ f c := by
  intro fuel
  induction fuel with
  | zero => intro q f c; exact le_refl _
  | succ fuel ih =>
    intro q f c
    match q with
    | [] => exact le_refl _
    | (p, s) :: q =>
      simp only [updateLoop]
      by_cases h1 : b.contains p
      · simp only [h1, Bool.not_true, Bool.false_eq_true, if_false]
        by_cases h2 : f p < s
        · simp only [h2, if_true]; exact ih q f c
        · simp only [h2, if_false]
          exact le_trans (ih _ _ c) (expandAll_le n m knownOnly simple p (f p) (f, q) c)
      · simp only [h1]
        simp only [Bool.not_false, if_true]
        exact ih q f c

/-- Seeding sets every in-field destination to 0. -/
theorem seedDest_zero (n : Nat) (dest : List Pos) (p : Pos) (hp : p ∈ dest)
    (hin : Pos.isInsideOfField n p = true) :
    (seedDest n dest).1 p = 0 := by
  unfold seedDest
  have hkeep : ∀ (l : List Pos) (s : Field × List (Pos × Nat)), s.1 p = 0 →
      (l.foldl
        (fun (s : Field × List (Pos × Nat)) r =>
          if Pos.isInsideOfField n r then (setStep s.1 r 0, qpush (r, 0) s.2) else s)
        s).1 p = 0 := by
    intro l
    induction l with
    | nil => intro s h; exact h
    | cons r rs ih =>
      intro s h
      simp only [List.foldl_cons]
      by_cases hr : Pos.isInsideOfField n r
      · refine ih _ ?_
        simp only [hr, if_true, setStep]
        by_cases hpr : p = r <;> simp [hpr, h]
      · simp only [hr, Bool.false_eq_true, if_false]
        exact ih s h
  have hmain : ∀ (l : List Pos) (s : Field × List (Pos × Nat)), p ∈ l →
      (l.foldl
        (fun (s : Field × List (Pos × Nat)) r =>
          if Pos.isInsideOfField n r then (setStep s.1 r 0, qpush (r, 0) s.2) else s)
        s).1 p = 0 := by
    intro l
    induction l with
    | nil => intro s h; cases h
    | cons r rs ih =>
      intro s h
      rcases List.mem_cons.mp h with h | h
      · subst h
        simp only [List.foldl_cons, hin, if_true]
        exact hkeep rs _ (by simp [setStep])
      · simp only [List.foldl_cons]
        exact ih _ h
  exact hmain dest _ hp

/-- C5: an in-field destination lying outside the known extent but within
2 cells of it is still seeded with cost 0, keeps cost 0 in the completed
field, and lies inside the bounding rectangle the solver derives (so the
solver expands it); and a destination more than 2 cells beyond the extent
that is not inside the derived box would make the search return the empty
sequence — a condition that never occurs, because the derived box always
contains every destination, which the proof discharges by contradiction. -/
theorem C5_destination_extent (n : Nat) (m : Maze) (dest : List Pos) (p : Pos)
    (knownOnly simple : Bool) (fuel : Nat)
    (hmem : p ∈ dest) (hin : Pos.isInsideOfField n p = true)
    (hout : ¬ (m.minX ≤ p.x ∧ p.x ≤ m.maxX ∧ m.minY ≤ p.y ∧ p.y ≤ m.maxY))
    (hnear : m.minX - 2 ≤ p.x ∧ p.x ≤ m.maxX + 2 ∧ m.minY - 2 ≤ p.y ∧ p.y ≤ m.maxY + 2) :
    (update n m dest knownOnly simple fuel).1 p = 0 ∧
    (calcBox m dest).contains p = true ∧
    (∀ (start : Pos) (ufuel dfuel : Nat) (q : Pos), q ∈ dest →
      ¬ (m.minX - 2 ≤ q.x ∧ q.x ≤ m.maxX + 2 ∧ m.minY - 2 ≤ q.y ∧ q.y ≤ m.maxY + 2) →
      (calcBox m dest).contains q = false →
      calcShortestDirections n m start dest knownOnly simple ufuel dfuel = []) := by
  refine ⟨?_, dest_mem_box m dest p hmem, ?_⟩
  · have h1 : (update n m dest knownOnly simple fuel).1 p ≤ (seedDest n dest).1 p := by
      unfold update
      exact updateLoop_le n m knownOnly simple (calcBox m dest) fuel _ _ p
    rw [seedDest_zero n dest p hmem hin] at h1
    omega
  · intro start ufuel dfuel q hq hfar hbox
    rw [dest_mem_box m dest q hq] at hbox
    cases hbox

/-- Witness for C5: on `cornerMaze4` (known extent the single cell
`(0, 0)`), the destination `(2, 0)` lies outside the extent, within 2
cells of it, and ends with field value 0 inside the derived box. -/
theorem C5_destination_extent_witness :
    (⟨2, 0⟩ : Pos) ∈ [(⟨2, 0⟩ : Pos)] ∧
    Pos.isInsideOfField 4 ⟨2, 0⟩ = true ∧
    ¬ (cornerMaze4.minX ≤ (2 : Int) ∧ (2 : Int) ≤ cornerMaze4.maxX ∧
       cornerMaze4.minY ≤ (0 : Int) ∧ (0 : Int) ≤ cornerMaze4.maxY) ∧
    ((update 4 cornerMaze4 [⟨2, 0⟩] false false 100).1 ⟨2, 0⟩ = 0 ∧
     (calcBox cornerMaze4 [⟨2, 0⟩]).contains ⟨2, 0⟩ = true ∧
     (∀ (start : Pos) (ufuel dfuel : Nat) (q : Pos), q ∈ [(⟨2, 0⟩ : Pos)] →
       ¬ (cornerMaze4.minX - 2 ≤ q.x ∧ q.x ≤ cornerMaze4.maxX + 2 ∧
          cornerMaze4.minY - 2 ≤ q.y ∧ q.y ≤ cornerMaze4.maxY + 2) →
       (calcBox cornerMaze4 [⟨2, 0⟩]).contains q = false →
       calcShortestDirections 4 cornerMaze4 start [⟨2, 0⟩] false false ufuel dfuel = [])) :=
  ⟨by decide, by decide, by decide,
   C5_destination_extent 4 cornerMaze4 [⟨2, 0⟩] ⟨2, 0⟩ false false 100
     (by decide) (by decide) (by decide) (by decide)⟩

/-!  ## Claim C7: unknown-first ordering of the candidates -/

/-- Insertion sort of a two-element list: swap iff the comparator orders
the second element before the first. -/
theorem insSort_pair (cmp : α → α → Bool) (a b : α) :
    insSort cmp [a, b] = if cmp b a = true then [b, a] else [a, b] := by
  by_cases h : cmp b a <;> simp [insSort, bubbleRev, h]

/-- C7 (counterexample): at cell `(1,1)` of `mzC7` with heading East, the
two open candidate directions East and North have targets of equal field
value; the North target `(1,2)` touches an unknown wall while the East
target `(2,1)` does not, yet the straight-priority pass puts East (the
current heading) first, so the unknown-adjacent direction does not sort
first. -/
theorem C7_counterexample :
    candidateDirs 4 mzC7 fC7 ⟨⟨1, 1⟩, 0⟩ = [0, 2] ∧
    getStep 4 fC7 (posNext ⟨1, 1⟩ 0) = getStep 4 fC7 (posNext ⟨1, 1⟩ 2) ∧
    mzC7.unknownCount 4 (posNext ⟨1, 1⟩ 2) ≠ 0 ∧
    mzC7.unknownCount 4 (posNext ⟨1, 1⟩ 0) = 0 ∧
    getNextDirectionCandidates 4 mzC7 fC7 ⟨⟨1, 1⟩, 0⟩ = [0, 2] := by
  refine ⟨by decide, by decide, by decide, by decide, by decide⟩

/-- C7 (amended): when the two candidate directions have targets of equal
field value, exactly one of them (`du`) leads to a cell with an
unknown-state adjacent wall, and the fully-known direction `dk` is not
the current heading, `getNextDirectionCandidates` orders `du` before
`dk`, whichever of the two base enumeration orders the filter produced. -/
theorem C7_amended (n : Nat) (m : Maze) (f : Field) (focus : Pose) (dk du : Dir)
    (hstep : getStep n f (posNext focus.p dk) = getStep n f (posNext focus.p du))
    (hu : m.unknownCount n (posNext focus.p du) ≠ 0)
    (hk : m.unknownCount n (posNext focus.p dk) = 0)
    (hne : dk ≠ focus.d) :
    (candidateDirs n m f focus = [dk, du] →
      getNextDirectionCandidates n m f focus = [du, dk]) ∧
    (candidateDirs n m f focus = [du, dk] →
      getNextDirectionCandidates n m f focus = [du, dk]) := by
  constructor
  · intro hc
    simp [getNextDirectionCandidates, hc, insSort_pair, hstep, hu, hk, hne]
  · intro hc
    simp [getNextDirectionCandidates, hc, insSort_pair, hstep, hu, hk, hne]

/-- Witness for C7 at cell `(1,1)` of `mzC7` with heading South: the
filter yields `[East, North]`, the North target is unknown-adjacent, and
the result lists North first. -/
theorem C7_amended_witness :
    getStep 4 fC7 (posNext ⟨1, 1⟩ 0) = getStep 4 fC7 (posNext ⟨1, 1⟩ 2) ∧
    mzC7.unknownCount 4 (posNext ⟨1, 1⟩ 2) ≠ 0 ∧
    mzC7.unknownCount 4 (posNext ⟨1, 1⟩ 0) = 0 ∧
    (0 : Dir) ≠ (6 : Dir) ∧
    candidateDirs 4 mzC7 fC7 ⟨⟨1, 1⟩, 6⟩ = [0, 2] ∧
    getNextDirectionCandidates 4 mzC7 fC7 ⟨⟨1, 1⟩, 6⟩ = [2, 0] :=
  ⟨by decide, by decide, by decide, by decide, by decide,
   (C7_amended 4 mzC7 fC7 ⟨⟨1, 1⟩, 6⟩ 0 2 (by decide) (by decide) (by decide)
     (by decide)).1 (by decide)⟩

/-!  ## Claim C4: `breakOnUnknown` and path prefixes -/

/-- The move origins of a concatenated path split at the junction cell. -/
theorem pathOrigins_append (p : Pos) (xs ys : List Dir) :
    pathOrigins p (xs ++ ys) = pathOrigins p xs ++ pathOrigins (endPos p xs) ys := by
  induction xs generalizing p with
  | nil => simp [pathOrigins, endPos]
  | cons d ds ih =>
    have hc : (d :: ds) ++ ys = d :: (ds ++ ys) := rfl
    rw [hc]
    show p :: pathOrigins (posNext p d) (ds ++ ys) = _
    rw [ih]
    rfl

/-- The advancement walk with `breakUnknown` off: it emits exactly `k`
copies of the direction, ends at the cell `k` straight moves away, and
never reports a break. -/
theorem advance_false (n : Nat) (m : Maze) (d : Dir) :
    ∀ (k : Nat) (e : Pose),
      (advance n m false d k e).1 = List.replicate k d ∧
      ((advance n m false d k e).2.1).p = endPos e.p (List.replicate k d) ∧
      (advance n m false d k e).2.2 = false := by
  intro k
  induction k with
  | zero => intro e; exact ⟨rfl, by simp [advance, endPos], rfl⟩
  | succ k ih =>
    intro e
    have h := ih (e.next d)
    simp only [advance, Bool.false_and, Bool.false_eq_true, if_false]
    refine ⟨?_, ?_, h.2.2⟩
    · rw [h.1]; rfl
    · rw [h.2.1]
      simp [endPos, List.replicate_succ, Pose.next]

/-- If no cell the walk departs from touches an unknown wall, the
advancement behaves identically with `breakUnknown` on and off. -/
theorem advance_true_all_known (n : Nat) (m : Maze) (d : Dir) :
    ∀ (k : Nat) (e : Pose),
      (∀ c ∈ pathOrigins e.p (List.replicate k d), m.unknownCount n c = 0) →
      advance n m true d k e = advance n m false d k e := by
  intro k
  induction k with
  | zero => intro e _; rfl
  | succ k ih =>
    intro e h
    have h0 : m.unknownCount n e.p = 0 := by
      refine h e.p ?_
      simp [List.replicate_succ, pathOrigins]
    have hrest : ∀ c ∈ pathOrigins (posNext e.p d) (List.replicate k d),
        m.unknownCount n c = 0 := by
      intro c hc
      refine h c ?_
      simp [List.replicate_succ, pathOrigins, hc]
    have hcond : (true && decide (m.unknownCount n e.p ≠ 0)) = false := by simp [h0]
    simp only [advance, hcond, Bool.false_and, Bool.false_eq_true, if_false]
    rw [ih (e.next d) (by simpa [Pose.next] using hrest)]

/-- If some cell the walk departs from touches an unknown wall, the
advancement with `breakUnknown` on stops strictly early and reports the
break. -/
theorem advance_true_break (n : Nat) (m : Maze) (d : Dir) :
    ∀ (k : Nat) (e : Pose),
      (∃ c ∈ pathOrigins e.p (List.replicate k d), m.unknownCount n c ≠ 0) →
      ∃ j, j < k ∧ (advance n m true d k e).1 = List.replicate j d ∧
        (advance n m true d k e).2.2 = true := by
  intro k
  induction k with
  | zero =>
    intro e h
    rcases h with ⟨c, hc, _⟩
    simp [pathOrigins] at hc
  | succ k ih =>
    intro e h
    by_cases h0 : m.unknownCount n e.p ≠ 0
    · refine ⟨0, by omega, ?_, ?_⟩ <;> simp [advance, h0]
    · have h0' : m.unknownCount n e.p = 0 := by omega
      have hrest : ∃ c ∈ pathOrigins (posNext e.p d) (List.replicate k d),
          m.unknownCount n c ≠ 0 := by
        rcases h with ⟨c, hc, hcu⟩
        simp only [List.replicate_succ, pathOrigins, List.mem_cons] at hc
        rcases hc with hc | hc
        · exact absurd (hc ▸ h0') hcu
        · exact ⟨c, hc, hcu⟩
      have hcond : (true && decide (m.unknownCount n e.p ≠ 0)) = false := by simp [h0']
      rcases ih (e.next d) (by simpa [Pose.next] using hrest) with ⟨j, hj, h1, h2⟩
      refine ⟨j + 1, by omega, ?_, ?_⟩
      · simp [advance, hcond, h1, h0', List.replicate_succ]
      · simp [advance, hcond, h2, h0']

/-- The heart of claim C4, on the descent loop: with the same fuel, the
`breakUnknown` run equals the plain run when every move origin of the
plain run's path is free of unknown walls, and is a strict prefix of it
when some move origin touches an unknown wall. -/
theorem descendLoop_breakUnknown (n : Nat) (m : Maze) (f : Field)
    (knownOnly simple : Bool) :
    ∀ (fuel : Nat) (focus : Pose),
      ((∀ c ∈ pathOrigins focus.p
          (descendLoop n m f knownOnly simple false fuel focus).1,
          m.unknownCount n c = 0) →
        descendLoop n m f knownOnly simple true fuel focus =
          descendLoop n m f knownOnly simple false fuel focus) ∧
      ((∃ c ∈ pathOrigins focus.p
          (descendLoop n m f knownOnly simple false fuel focus).1,
          m.unknownCount n c ≠ 0) →
        ∃ t, t ≠ [] ∧
          (descendLoop n m f knownOnly simple false fuel focus).1 =
            (descendLoop n m f knownOnly simple true fuel focus).1 ++ t) := by
  intro fuel
  induction fuel with
  | zero =>
    intro focus
    constructor
    · intro _; rfl
    · intro h; rcases h with ⟨c, hc, _⟩; simp [descendLoop, pathOrigins] at hc
  | succ fuel ih =>
    intro focus
    by_cases h0 : f focus.p = 0
    · constructor
      · intro _; simp [descendLoop, h0]
      · intro h; rcases h with ⟨c, hc, _⟩
        simp [descendLoop, h0, pathOrigins] at hc
    · rcases hscan : scanDirs n m f knownOnly simple (f focus.p) focus.p with _ | r
      · constructor
        · intro _; simp [descendLoop, h0, hscan]
        · intro h; rcases h with ⟨c, hc, _⟩
          simp [descendLoop, h0, hscan, pathOrigins] at hc
      · by_cases hguard : f focus.p ≤ f r.1
        · constructor
          · intro _; simp [descendLoop, h0, hscan, hguard]
          · intro h; rcases h with ⟨c, hc, _⟩
            simp [descendLoop, h0, hscan, hguard, pathOrigins] at hc
        · -- the advancing case
          have hAf := advance_false n m r.2.1 r.2.2 focus
          have hFexp : descendLoop n m f knownOnly simple false (fuel + 1) focus =
              ((advance n m false r.2.1 r.2.2 focus).1 ++
                (descendLoop n m f knownOnly simple false fuel
                  (advance n m false r.2.1 r.2.2 focus).2.1).1,
               (descendLoop n m f knownOnly simple false fuel
                 (advance n m false r.2.1 r.2.2 focus).2.1).2) := by
            simp [descendLoop, h0, hscan, hguard, hAf.2.2]
          have hsplit : pathOrigins focus.p
              (descendLoop n m f knownOnly simple false (fuel + 1) focus).1 =
              pathOrigins focus.p (List.replicate r.2.2 r.2.1) ++
              pathOrigins ((advance n m false r.2.1 r.2.2 focus).2.1).p
                (descendLoop n m f knownOnly simple false fuel
                  (advance n m false r.2.1 r.2.2 focus).2.1).1 := by
            rw [hFexp, pathOrigins_append, hAf.1, ← hAf.2.1]
          constructor
          · intro h
            rw [hsplit] at h
            have hwalk : ∀ c ∈ pathOrigins focus.p (List.replicate r.2.2 r.2.1),
                m.unknownCount n c = 0 := fun c hc => h c (by simp [hc])
            have hrest : ∀ c ∈ pathOrigins ((advance n m false r.2.1 r.2.2 focus).2.1).p
                (descendLoop n m f knownOnly simple false fuel
                  (advance n m false r.2.1 r.2.2 focus).2.1).1,
                m.unknownCount n c = 0 := fun c hc => h c (by simp [hc])
            have hAeq := advance_true_all_known n m r.2.1 r.2.2 focus hwalk
            have hIH := (ih (advance n m false r.2.1 r.2.2 focus).2.1).1 hrest
            simp [descendLoop, h0, hscan, hguard, hAeq, hAf.2.2, hIH]
          · intro h
            rw [hsplit] at h
            by_cases hwalk : ∃ c ∈ pathOrigins focus.p (List.replicate r.2.2 r.2.1),
                m.unknownCount n c ≠ 0
            · rcases advance_true_break n m r.2.1 r.2.2 focus hwalk with ⟨j, hj, hT1, hT2⟩
              refine ⟨List.replicate (r.2.2 - j) r.2.1 ++
                (descendLoop n m f knownOnly simple false fuel
                  (advance n m false r.2.1 r.2.2 focus).2.1).1, ?_, ?_⟩
              · have hne : r.2.2 - j ≠ 0 := by omega
                simp [List.append_eq_nil, List.replicate_eq_nil_iff, hne]
              · have hTexp : descendLoop n m f knownOnly simple true (fuel + 1) focus =
                    ((advance n m true r.2.1 r.2.2 focus).1,
                     (advance n m true r.2.1 r.2.2 focus).2.1) := by
                  simp [descendLoop, h0, hscan, hguard, hT2]
                have hrep : List.replicate r.2.2 r.2.1 =
                    List.replicate j r.2.1 ++ List.replicate (r.2.2 - j) r.2.1 := by
                  rw [← List.replicate_add]
                  congr 1
                  omega
                rw [hFexp, hTexp, hT1, hAf.1, hrep]
                exact List.append_assoc _ _ _
            · have hwalk' : ∀ c ∈ pathOrigins focus.p (List.replicate r.2.2 r.2.1),
                  m.unknownCount n c = 0 := by
                push_neg at hwalk
                intro c hc
                have := hwalk c hc
                omega
              have hrest : ∃ c ∈ pathOrigins ((advance n m false r.2.1 r.2.2 focus).2.1).p
                  (descendLoop n m f knownOnly simple false fuel
                    (advance n m false r.2.1 r.2.2 focus).2.1).1,
                  m.unknownCount n c ≠ 0 := by
                rcases h with ⟨c, hc, hcu⟩
                rcases List.mem_append.mp hc with hc | hc
                · exact absurd (hwalk' c hc) hcu
                · exact ⟨c, hc, hcu⟩
              have hAeq := advance_true_all_known n m r.2.1 r.2.2 focus hwalk'
              rcases (ih (advance n m false r.2.1 r.2.2 focus).2.1).2 hrest with ⟨t, ht, heq⟩
              refine ⟨t, ht, ?_⟩
              have hTexp : descendLoop n m f knownOnly simple true (fuel + 1) focus =
                  ((advance n m false r.2.1 r.2.2 focus).1 ++
                    (descendLoop n m f knownOnly simple true fuel
                      (advance n m false r.2.1 r.2.2 focus).2.1).1,
                   (descendLoop n m f knownOnly simple true fuel
                     (advance n m false r.2.1 r.2.2 focus).2.1).2) := by
                simp [descendLoop, h0, hscan, hguard, hAeq, hAf.2.2]
              rw [hFexp, hTexp]
              simp only [List.append_assoc, List.append_cancel_left_eq]
              exact heq

/-- C4 (counterexample): on `mzC4`, the descent from `(1, 0)` over the
solved field reaches the goal `(0, 0)` in one move; the goal cell — the
final cell of the extracted path — touches an unknown wall, yet the
`breakOnUnknown` run returns the identical (not strictly shorter)
sequence, because the break is only checked on cells the walk departs
from. -/
theorem C4_counterexample :
    getStepDownDirections 4 mzC4 (update 4 mzC4 [⟨0, 0⟩] false false 100).1
        ⟨⟨1, 0⟩, 0⟩ false false true 50 =
      getStepDownDirections 4 mzC4 (update 4 mzC4 [⟨0, 0⟩] false false 100).1
        ⟨⟨1, 0⟩, 0⟩ false false false 50 ∧
    (getStepDownDirections 4 mzC4 (update 4 mzC4 [⟨0, 0⟩] false false 100).1
        ⟨⟨1, 0⟩, 0⟩ false false false 50).1 = [4] ∧
    endPos ⟨1, 0⟩ [4] = ⟨0, 0⟩ ∧
    mzC4.unknownCount 4 ⟨0, 0⟩ ≠ 0 := by
  refine ⟨by decide, by decide, by decide, by decide⟩

/-- C4 (amended): for every maze, field, start pose and fuel, if every
cell from which the `breakOnUnknown=false` descent departs (every path
cell except the final one) is free of unknown walls, the
`breakOnUnknown=true` descent returns the identical result; if some such
departure cell touches an unknown wall, the `true` sequence is a strict
prefix of the `false` sequence. -/
theorem C4_amended (n : Nat) (m : Maze) (f : Field) (start : Pose)
    (knownOnly simple : Bool) (fuel : Nat) :
    ((∀ c ∈ pathOrigins start.p
        (getStepDownDirections n m f start knownOnly simple false fuel).1,
        m.unknownCount n c = 0) →
      getStepDownDirections n m f start knownOnly simple true fuel =
        getStepDownDirections n m f start knownOnly simple false fuel) ∧
    ((∃ c ∈ pathOrigins start.p
        (getStepDownDirections n m f start knownOnly simple false fuel).1,
        m.unknownCount n c ≠ 0) →
      ∃ t, t ≠ [] ∧
        (getStepDownDirections n m f start knownOnly simple false fuel).1 =
          (getStepDownDirections n m f start knownOnly simple true fuel).1 ++ t) := by
  by_cases hin : Pos.isInsideOfField n start.p
  · unfold getStepDownDirections
    simp only [hin, Bool.not_true, Bool.false_eq_true, if_false]
    exact descendLoop_breakUnknown n m f knownOnly simple fuel start
  · have hin' : Pos.isInsideOfField n start.p = false := by
      cases h : Pos.isInsideOfField n start.p
      · rfl
      · exact absurd h hin
    unfold getStepDownDirections
    simp only [hin', Bool.not_false, if_true]
    constructor
    · intro _; trivial
    · intro h; rcases h with ⟨c, hc, _⟩; simp [pathOrigins] at hc

/-- Witness for C4 on `mzC4`: the only departure cell `(1, 0)` of the
plain descent is fully known, and the two descents coincide. -/
theorem C4_amended_witness :
    (∀ c ∈ pathOrigins (⟨1, 0⟩ : Pos)
        (getStepDownDirections 4 mzC4 (update 4 mzC4 [⟨0, 0⟩] false false 100).1
          ⟨⟨1, 0⟩, 0⟩ false false false 50).1,
        mzC4.unknownCount 4 c = 0) ∧
    getStepDownDirections 4 mzC4 (update 4 mzC4 [⟨0, 0⟩] false false 100).1
        ⟨⟨1, 0⟩, 0⟩ false false true 50 =
      getStepDownDirections 4 mzC4 (update 4 mzC4 [⟨0, 0⟩] false false 100).1
        ⟨⟨1, 0⟩, 0⟩ false false false 50 :=
  ⟨by decide,
   (C4_amended 4 mzC4 (update 4 mzC4 [⟨0, 0⟩] false false 100).1
     ⟨⟨1, 0⟩, 0⟩ false false 50).1 (by decide)⟩

/-!  ## Claims C1 and C2: the simple-cost solver and exact distances

The lemmas below follow the invariant `SolveInvE` through seeding, the
straight-run expansions and the queue-draining loop, in simple-cost mode
(`simple = true`).  The `cnt`-based bound keeps every candidate cost
strictly below `2^16`, so the `% 65536` of the source never wraps for
`n ≤ 32` (the library's `MAZE_SIZE`). -/

/-- Membership in the finite set of in-field cells. -/
theorem mem_cells (n : Nat) (c : Pos) :
    c ∈ cells n ↔ Pos.isInsideOfField n c = true := by
  simp only [cells, Finset.mem_image, Finset.mem_product, Finset.mem_Icc,
    Pos.isInsideOfField, Bool.and_eq_true, decide_eq_true_eq]
  constructor
  · rintro ⟨⟨a, b⟩, ⟨⟨ha0, ha1⟩, hb0, hb1⟩, rfl⟩
    exact ⟨⟨⟨ha0, show a < (n : Int) by omega⟩, hb0⟩, show b < (n : Int) by omega⟩
  · rintro ⟨⟨⟨hx0, hx1⟩, hy0⟩, hy1⟩
    exact ⟨(c.x, c.y), ⟨⟨hx0, by omega⟩, hy0, by omega⟩, rfl⟩

/-- There are at most `n * n` finite cells. -/
theorem cnt_le_sq (n : Nat) (f : Field) : cnt n f ≤ n * n := by
  unfold cnt
  refine le_trans (Finset.card_filter_le _ _) ?_
  unfold cells
  refine le_trans Finset.card_image_le ?_
  rw [Finset.card_product]
  have h : (Finset.Icc (0 : Int) ((n : Int) - 1)).card = n := by
    rw [Int.card_Icc]
    simp
  rw [h]

/-- Reading the written cell. -/
theorem setStep_same (f : Field) (c : Pos) (v : Nat) : setStep f c v c = v := by
  simp [setStep]

/-- Reading any other cell. -/
theorem setStep_other (f : Field) (c : Pos) (v : Nat) (x : Pos) (h : x ≠ c) :
    setStep f c v x = f x := by
  simp [setStep, h]

/-- A write below the current value only decreases the field. -/
theorem setStep_le (f : Field) (c : Pos) (v : Nat) (h : v ≤ f c) (x : Pos) :
    setStep f c v x ≤ f x := by
  by_cases hx : x = c
  · subst hx; rw [setStep_same]; exact h
  · rw [setStep_other f c v x hx]

/-- Membership in the priority queue after a push. -/
theorem qpush_mem (x : Pos × Nat) (l : List (Pos × Nat)) (e : Pos × Nat) :
    e ∈ qpush x l ↔ e = x ∨ e ∈ l := by
  induction l with
  | nil => simp [qpush]
  | cons y ys ih =>
    by_cases h : y.2 ≤ x.2
    · simp only [qpush, h, if_true, List.mem_cons, ih]
      tauto
    · simp only [qpush, h, if_false, List.mem_cons]

/-- A cell reached through an unblocked cardinal wall from an in-field
cell is itself in-field (the outer boundary is sealed). -/
theorem next_in_field (n : Nat) (m : Maze) (knownOnly : Bool) (p : Pos) (d : Dir)
    (hd : d ∈ Along4) (hp : Pos.isInsideOfField n p = true)
    (hb : blocked n m knownOnly p d = false) :
    Pos.isInsideOfField n (posNext p d) = true := by
  have hw : m.isWall n (wallIndexOf p d) = false := by
    simp only [blocked, Bool.or_eq_false_iff] at hb
    exact hb.1
  have hwin : WallIndex.isInsideOfField n (wallIndexOf p d) = true := by
    by_contra hc
    have hc' : WallIndex.isInsideOfField n (wallIndexOf p d) = false := by
      cases h : WallIndex.isInsideOfField n (wallIndexOf p d)
      · rfl
      · exact absurd h hc
    rw [Maze.isWall, hc'] at hw
    simp at hw
  simp only [Pos.isInsideOfField, Bool.and_eq_true, decide_eq_true_eq] at hp ⊢
  simp only [Along4] at hd
  fin_cases hd <;>
    simp [wallIndexOf, WallIndex.isInsideOfField, posNext] at hwin ⊢ <;>
    omega

/-- Writing a finite value never decreases the finite-cell count. -/
theorem cnt_mono_set (n : Nat) (f : Field) (c : Pos) (v : Nat) (hv : v ≠ STEP_MAX) :
    cnt n f ≤ cnt n (setStep f c v) := by
  unfold cnt
  apply Finset.card_le_card
  intro x hx
  rcases Finset.mem_filter.mp hx with ⟨hx1, hx2⟩
  refine Finset.mem_filter.mpr ⟨hx1, ?_⟩
  by_cases hxc : x = c
  · subst hxc; rw [setStep_same]; exact hv
  · rw [setStep_other f c v x hxc]; exact hx2

/-- Writing a finite value into a sentinel in-field cell increases the
finite-cell count by exactly one. -/
theorem cnt_set_new (n : Nat) (f : Field) (c : Pos) (v : Nat)
    (hin : Pos.isInsideOfField n c = true) (hf : f c = STEP_MAX) (hv : v ≠ STEP_MAX) :
    cnt n (setStep f c v) = cnt n f + 1 := by
  unfold cnt
  have hset : (cells n).filter (fun x => setStep f c v x ≠ STEP_MAX) =
      insert c ((cells n).filter fun x => f x ≠ STEP_MAX) := by
    ext x
    simp only [Finset.mem_filter, Finset.mem_insert]
    constructor
    · rintro ⟨hx1, hx2⟩
      by_cases hxc : x = c
      · exact Or.inl hxc
      · rw [setStep_other f c v x hxc] at hx2
        exact Or.inr ⟨hx1, hx2⟩
    · rintro (rfl | ⟨hx1, hx2⟩)
      · refine ⟨(mem_cells n x).mpr hin, ?_⟩
        rw [setStep_same]; exact hv
      · refine ⟨hx1, ?_⟩
        by_cases hxc : x = c
        · subst hxc; exact absurd hf hx2
        · rw [setStep_other f c v x hxc]; exact hx2
  rw [hset, Finset.card_insert_of_not_mem]
  intro hc
  exact (Finset.mem_filter.mp hc).2 hf

/-- The final cell of a concatenated path. -/
theorem endPos_append (p : Pos) (xs ys : List Dir) :
    endPos p (xs ++ ys) = endPos (endPos p xs) ys := by
  simp [endPos, List.foldl_append]

/-- Validity of a concatenated path. -/
theorem pathOk_append (n : Nat) (m : Maze) (knownOnly : Bool) (xs ys : List Dir) :
    ∀ p : Pos, pathOk n m knownOnly p (xs ++ ys) =
      (pathOk n m knownOnly p xs && pathOk n m knownOnly (endPos p xs) ys) := by
  induction xs with
  | nil => intro p; simp [pathOk, endPos]
  | cons d ds ih =>
    intro p
    have h1 : (d :: ds) ++ ys = d :: (ds ++ ys) := rfl
    rw [h1]
    show (Along4.contains d && !(blocked n m knownOnly p d) &&
        pathOk n m knownOnly (posNext p d) (ds ++ ys)) = _
    rw [ih (posNext p d)]
    have h2 : endPos p (d :: ds) = endPos (posNext p d) ds := rfl
    have h3 : pathOk n m knownOnly p (d :: ds) =
        (Along4.contains d && !(blocked n m knownOnly p d) &&
          pathOk n m knownOnly (posNext p d) ds) := rfl
    rw [h2, h3]
    simp only [Bool.and_assoc]

/-- Appending one unblocked cardinal move keeps a path valid. -/
theorem pathOk_snoc (n : Nat) (m : Maze) (knownOnly : Bool) (p : Pos) (ds : List Dir)
    (d : Dir) (hds : pathOk n m knownOnly p ds = true) (hd : d ∈ Along4)
    (hb : blocked n m knownOnly (endPos p ds) d = false) :
    pathOk n m knownOnly p (ds ++ [d]) = true := by
  rw [pathOk_append]
  have hcont : Along4.contains d = true := List.elem_eq_true_of_mem hd
  simp [hds, pathOk, hcont, hb, hd]

/-- Simple-cost accumulation is just counting moves. -/
theorem runCostAux_simple (ds : List Dir) :
    ∀ (cur : Dir) (len : Nat), runCostAux true ds cur len = len + ds.length := by
  induction ds with
  | nil => intro cur len; simp [runCostAux]
  | cons d ds ih =>
    intro cur len
    by_cases h : d = cur
    · simp only [runCostAux, h, if_true, ih]
      simp [List.length_cons]
      omega
    · simp only [runCostAux, h, if_false, ih]
      simp [List.length_cons]
      omega

/-- With `simpleCost`, the run-decomposed path cost equals the number of
moves. -/
theorem runCost_simple (ds : List Dir) : runCost true ds = ds.length := by
  cases ds with
  | nil => rfl
  | cons d ds =>
    simp only [runCost, runCostAux_simple, List.length_cons]
    omega

/-- One write-and-push of the solver: writing a strictly smaller value
(realised by a valid path and within the growth bound) and pushing the
matching entry preserves the invariant. -/
theorem SolveInvE_write (n : Nat) (m : Maze) (dest : List Pos) (knownOnly : Bool)
    (ex : Option Pos) (f : Field) (q : List (Pos × Nat)) (c : Pos) (v : Nat)
    (H : SolveInvE n m dest knownOnly ex f q)
    (hin : Pos.isInsideOfField n c = true)
    (hlt : v < f c)
    (hbound : v ≤ (n + 2) * (cnt n f + 1))
    (hpath : ∃ p ds, p ∈ dest ∧ Pos.isInsideOfField n p = true ∧
      pathOk n m knownOnly p ds = true ∧ endPos p ds = c ∧ List.length ds = v) :
    SolveInvE n m dest knownOnly ex (setStep f c v) (qpush (c, v) q) := by
  have hvmax : v < STEP_MAX := lt_of_lt_of_le hlt (H.le_max c)
  have hvne : v ≠ STEP_MAX := by omega
  have hcnt := cnt_mono_set n f c v hvne
  constructor
  · intro x hx
    by_cases hxc : x = c
    · subst hxc; simp [hx] at hin
    · rw [setStep_other f c v x hxc]; exact H.out_sentinel x hx
  · intro x
    by_cases hxc : x = c
    · subst hxc; rw [setStep_same]; omega
    · rw [setStep_other f c v x hxc]; exact H.le_max x
  · intro e he
    rcases (qpush_mem _ q e).mp he with rfl | he'
    · exact ⟨hin, by rw [setStep_same], hvmax⟩
    · rcases H.queue_ok e he' with ⟨h1, h2, h3⟩
      exact ⟨h1, le_trans (setStep_le f c v (le_of_lt hlt) (Prod.fst e)) h2, h3⟩
  · intro x hx1 hx2
    by_cases hxc : x = c
    · subst hxc
      rw [setStep_same]
      by_cases hfin : f x = STEP_MAX
      · rw [cnt_set_new n f x v hin hfin hvne]
        exact hbound
      · calc v ≤ f x := le_of_lt hlt
        _ ≤ (n + 2) * cnt n f := H.bounded x hx1 hfin
        _ ≤ (n + 2) * cnt n (setStep f x v) := Nat.mul_le_mul_left _ hcnt
    · rw [setStep_other f c v x hxc] at hx2 ⊢
      calc f x ≤ (n + 2) * cnt n f := H.bounded x hx1 hx2
      _ ≤ (n + 2) * cnt n (setStep f c v) := Nat.mul_le_mul_left _ hcnt
  · intro x hx1 hx2 hex
    by_cases hxc : x = c
    · subst hxc
      right
      rw [setStep_same]
      exact (qpush_mem _ q _).mpr (Or.inl rfl)
    · rw [setStep_other f c v x hxc] at hx2 ⊢
      rcases H.relaxed x hx1 hx2 hex with hs | hq
      · left
        intro d hd hbl
        rw [setStep_other f c v x hxc]
        exact le_trans (setStep_le f c v (le_of_lt hlt) (posNext x d)) (hs d hd hbl)
      · right
        exact (qpush_mem _ q _).mpr (Or.inr hq)
  · intro x hx
    by_cases hxc : x = c
    · subst hxc
      rw [setStep_same]
      exact hpath
    · rw [setStep_other f c v x hxc] at hx ⊢
      exact H.sound x hx

/-- Seeding one in-field destination (write 0, push priority 0) preserves
the invariant. -/
theorem SolveInvE_seed_write (n : Nat) (m : Maze) (dest : List Pos) (knownOnly : Bool)
    (f : Field) (q : List (Pos × Nat)) (p : Pos)
    (H : SolveInvE n m dest knownOnly none f q)
    (hin : Pos.isInsideOfField n p = true) (hmem : p ∈ dest) :
    SolveInvE n m dest knownOnly none (setStep f p 0) (qpush (p, 0) q) := by
  have hzne : (0 : Nat) ≠ STEP_MAX := by decide
  have hcnt := cnt_mono_set n f p 0 hzne
  constructor
  · intro x hx
    by_cases hxc : x = p
    · subst hxc; simp [hx] at hin
    · rw [setStep_other f p 0 x hxc]; exact H.out_sentinel x hx
  · intro x
    by_cases hxc : x = p
    · subst hxc; rw [setStep_same]; exact Nat.zero_le _
    · rw [setStep_other f p 0 x hxc]; exact H.le_max x
  · intro e he
    rcases (qpush_mem _ q e).mp he with rfl | he'
    · exact ⟨hin, by rw [setStep_same], (by decide : (0 : Nat) < STEP_MAX)⟩
    · rcases H.queue_ok e he' with ⟨h1, h2, h3⟩
      exact ⟨h1, le_trans (setStep_le f p 0 (Nat.zero_le _) (Prod.fst e)) h2, h3⟩
  · intro x hx1 hx2
    by_cases hxc : x = p
    · subst hxc
      rw [setStep_same]
      exact Nat.zero_le _
    · rw [setStep_other f p 0 x hxc] at hx2 ⊢
      calc f x ≤ (n + 2) * cnt n f := H.bounded x hx1 hx2
      _ ≤ (n + 2) * cnt n (setStep f p 0) := Nat.mul_le_mul_left _ hcnt
  · intro x hx1 hx2 hex
    by_cases hxc : x = p
    · subst hxc
      right
      rw [setStep_same]
      exact (qpush_mem _ q _).mpr (Or.inl rfl)
    · rw [setStep_other f p 0 x hxc] at hx2 ⊢
      rcases H.relaxed x hx1 hx2 hex with hs | hq
      · left
        intro d hd hbl
        rw [setStep_other f p 0 x hxc]
        exact le_trans (setStep_le f p 0 (Nat.zero_le _) (posNext x d)) (hs d hd hbl)
      · right
        exact (qpush_mem _ q _).mpr (Or.inr hq)
  · intro x hx
    by_cases hxc : x = p
    · subst hxc
      rw [setStep_same]
      exact ⟨_, [], hmem, hin, rfl, rfl, rfl⟩
    · rw [setStep_other f p 0 x hxc] at hx ⊢
      exact H.sound x hx

/-- The invariant holds for the freshly reset and seeded state. -/
theorem seedDest_invE (n : Nat) (m : Maze) (dest : List Pos) (knownOnly : Bool) :
    SolveInvE n m dest knownOnly none (seedDest n dest).1 (seedDest n dest).2 := by
  have hbase : SolveInvE n m dest knownOnly none resetField [] := by
    constructor
    · intro _ _; rfl
    · intro _; exact le_refl _
    · intro e he; cases he
    · intro c _ hc; exact absurd rfl hc
    · intro c _ hc _; exact absurd rfl hc
    · intro c hc; exact absurd rfl hc
  have hgen : ∀ (l : List Pos) (s : Field × List (Pos × Nat)),
      (∀ p ∈ l, p ∈ dest) → SolveInvE n m dest knownOnly none s.1 s.2 →
      SolveInvE n m dest knownOnly none
        (l.foldl
          (fun (s : Field × List (Pos × Nat)) p =>
            if Pos.isInsideOfField n p then (setStep s.1 p 0, qpush (p, 0) s.2) else s)
          s).1
        (l.foldl
          (fun (s : Field × List (Pos × Nat)) p =>
            if Pos.isInsideOfField n p then (setStep s.1 p 0, qpush (p, 0) s.2) else s)
          s).2 := by
    intro l
    induction l with
    | nil => intro s _ H; exact H
    | cons p ps ih =>
      intro s hl H
      simp only [List.foldl_cons]
      by_cases hp : Pos.isInsideOfField n p
      · simp only [hp, if_true]
        exact ih _ (fun r hr => hl r (by simp [hr]))
          (SolveInvE_seed_write n m dest knownOnly s.1 s.2 p H hp (hl p (by simp)))
      · simp only [hp, Bool.false_eq_true, if_false]
        exact ih _ (fun r hr => hl r (by simp [hr])) H
  exact hgen dest (resetField, []) (fun p hp => hp) hbase

/-- The straight-run expansion of the simple-cost solver preserves the
invariant; the field only decreases pointwise, the queue only grows, any
cell whose value changed carries a queue entry at its new value, and the
finite-cell count only grows.  The bound hypotheses keep the `step_t`
addition below `2^16`. -/
theorem expandDir_invE (n : Nat) (m : Maze) (dest : List Pos) (knownOnly : Bool)
    (focus : Pos) (fstep : Nat) (d : Dir) (hd : d ∈ Along4) (hn : n ≤ 32) :
    ∀ (fuel : Nat) (next : Pos) (i : Nat) (f : Field) (q : List (Pos × Nat)),
      SolveInvE n m dest knownOnly (some focus) f q →
      fstep ≤ (n + 2) * cnt n f →
      Pos.isInsideOfField n next = true →
      (∃ p rs, p ∈ dest ∧ Pos.isInsideOfField n p = true ∧
        pathOk n m knownOnly p rs = true ∧ endPos p rs = next ∧
        List.length rs + 1 = fstep + i) →
      1 ≤ i → i + fuel ≤ n + 3 →
      SolveInvE n m dest knownOnly (some focus)
        (expandDir n m knownOnly true fstep d fuel next i (f, q)).1
        (expandDir n m knownOnly true fstep d fuel next i (f, q)).2 ∧
      (∀ c, (expandDir n m knownOnly true fstep d fuel next i (f, q)).1 c ≤ f c) ∧
      (∀ e ∈ q, e ∈ (expandDir n m knownOnly true fstep d fuel next i (f, q)).2) ∧
      (∀ c, (expandDir n m knownOnly true fstep d fuel next i (f, q)).1 c = f c ∨
        (c, (expandDir n m knownOnly true fstep d fuel next i (f, q)).1 c) ∈
          (expandDir n m knownOnly true fstep d fuel next i (f, q)).2) ∧
      cnt n f ≤ cnt n (expandDir n m knownOnly true fstep d fuel next i (f, q)).1 ∧
      (i = 1 → 1 ≤ fuel → blocked n m knownOnly next d = false →
        (expandDir n m knownOnly true fstep d fuel next i (f, q)).1 (posNext next d) ≤
          fstep + 1) := by
  intro fuel
  induction fuel with
  | zero =>
    intro next i f q H _ _ _ _ _
    exact ⟨H, fun c => le_refl _, fun e he => he, fun c => Or.inl rfl, le_refl _,
      fun _ h _ => absurd h (by omega)⟩
  | succ fuel ih =>
    intro next i f q H hfb hnext hpath hi hif
    by_cases hb : blocked n m knownOnly next d
    · have hstep : expandDir n m knownOnly true fstep d (fuel + 1) next i (f, q) = (f, q) := by
        simp [expandDir, hb]
      rw [hstep]
      refine ⟨H, fun c => le_refl _, fun e he => he, fun c => Or.inl rfl, le_refl _, ?_⟩
      intro _ _ hbf
      rw [hbf] at hb
      exact absurd hb (by simp)
    · have hb' : blocked n m knownOnly next d = false := by
        cases hbb : blocked n m knownOnly next d
        · rfl
        · exact absurd hbb hb
      have hcnt_sq : cnt n f ≤ n * n := cnt_le_sq n f
      have hfs_small : fstep + i < 65536 := by
        have h1 : fstep ≤ (n + 2) * (n * n) :=
          le_trans hfb (Nat.mul_le_mul_left _ hcnt_sq)
        have ha : n + 2 ≤ 34 := by omega
        have hb2 : n * n ≤ 1024 :=
          Nat.mul_le_mul (show n ≤ 32 by omega) (show n ≤ 32 by omega)
        have h2 : (n + 2) * (n * n) ≤ 34 * 1024 := Nat.mul_le_mul ha hb2
        omega
      have hcand : (fstep + (if (true : Bool) then i else stepTable i)) % 65536 =
          fstep + i := by
        simp only [if_true]
        exact Nat.mod_eq_of_lt hfs_small
      have hnext'in : Pos.isInsideOfField n (posNext next d) = true :=
        next_in_field n m knownOnly next d hd hnext hb'
      by_cases hle : f (posNext next d) ≤
          (fstep + (if (true : Bool) then i else stepTable i)) % 65536
      · have hstep : expandDir n m knownOnly true fstep d (fuel + 1) next i (f, q) = (f, q) := by
          simp [expandDir, hb']
          intro hcontra
          rw [hcand] at hle
          omega
        rw [hstep]
        refine ⟨H, fun c => le_refl _, fun e he => he, fun c => Or.inl rfl, le_refl _, ?_⟩
        intro hi1 _ _
        rw [hcand] at hle
        subst hi1
        show f (posNext next d) ≤ fstep + 1
        omega
      · have hwlt : fstep + i < f (posNext next d) := by
          rw [hcand] at hle
          omega
        have hle' : ¬ f (posNext next d) ≤ fstep + i := by omega
        have hvne : fstep + i ≠ STEP_MAX := by
          have := H.le_max (posNext next d)
          unfold STEP_MAX at *
          omega
        have hile : i ≤ n + 2 := by omega
        have hbound : fstep + i ≤ (n + 2) * (cnt n f + 1) := by
          have : (n + 2) * (cnt n f + 1) = (n + 2) * cnt n f + (n + 2) :=
            Nat.mul_succ _ _
          omega
        have hpath' : ∃ p rs, p ∈ dest ∧ Pos.isInsideOfField n p = true ∧
            pathOk n m knownOnly p rs = true ∧ endPos p rs = posNext next d ∧
            List.length rs = fstep + i := by
          rcases hpath with ⟨p, rs, hp1, hp2, hp3, hp4, hp5⟩
          refine ⟨p, rs ++ [d], hp1, hp2, ?_, ?_, ?_⟩
          · exact pathOk_snoc n m knownOnly p rs d hp3 hd (by rw [hp4]; exact hb')
          · rw [endPos_append, hp4]
            rfl
          · simp only [List.length_append, List.length_cons, List.length_nil]
            omega
        have H1 := SolveInvE_write n m dest knownOnly (some focus) f q
          (posNext next d) (fstep + i) H hnext'in hwlt hbound hpath'
        have hcnt1 : cnt n f ≤ cnt n (setStep f (posNext next d) (fstep + i)) :=
          cnt_mono_set n f (posNext next d) (fstep + i) hvne
        have hfb1 : fstep ≤ (n + 2) * cnt n (setStep f (posNext next d) (fstep + i)) :=
          le_trans hfb (Nat.mul_le_mul_left _ hcnt1)
        have hpath1 : ∃ p rs, p ∈ dest ∧ Pos.isInsideOfField n p = true ∧
            pathOk n m knownOnly p rs = true ∧ endPos p rs = posNext next d ∧
            List.length rs + 1 = fstep + (i + 1) := by
          rcases hpath' with ⟨p, rs, h1, h2, h3, h4, h5⟩
          exact ⟨p, rs, h1, h2, h3, h4, by omega⟩
        have IH := ih (posNext next d) (i + 1)
          (setStep f (posNext next d) (fstep + i))
          (qpush (posNext next d, fstep + i) q)
          H1 hfb1 hnext'in hpath1 (by omega) (by omega)
        have hstep : expandDir n m knownOnly true fstep d (fuel + 1) next i (f, q) =
            expandDir n m knownOnly true fstep d fuel (posNext next d) (i + 1)
              (setStep f (posNext next d) (fstep + i),
               qpush (posNext next d, fstep + i) q) := by
          simp only [expandDir, hb', Bool.false_eq_true, if_false, if_true,
            Nat.mod_eq_of_lt hfs_small, hle', if_false]
        rw [hstep]
        refine ⟨IH.1, ?_, ?_, ?_, le_trans hcnt1 IH.2.2.2.2.1, ?_⟩
        · intro c
          refine le_trans (IH.2.1 c) ?_
          exact setStep_le f (posNext next d) (fstep + i) (le_of_lt hwlt) c
        · intro e he
          exact IH.2.2.1 e ((qpush_mem _ q e).mpr (Or.inr he))
        · intro c
          rcases IH.2.2.2.1 c with hc | hc
          · rw [hc]
            by_cases hcn : c = posNext next d
            · subst hcn
              right
              rw [setStep_same]
              exact IH.2.2.1 _ ((qpush_mem _ q _).mpr (Or.inl rfl))
            · left
              exact setStep_other f (posNext next d) (fstep + i) c hcn
          · right
            exact hc
        · intro hi1 _ _
          refine le_trans (IH.2.1 (posNext next d)) ?_
          rw [setStep_same]
          omega

/-- Folding straight-run expansions over a list of cardinal directions
preserves the invariant; afterwards every direction of the list whose
first wall is open leads to a cell within one simple-cost step of the
popped value. -/
theorem expandFold_invE (n : Nat) (m : Maze) (dest : List Pos) (knownOnly : Bool)
    (p : Pos) (fstep : Nat) (hn : n ≤ 32)
    (hin : Pos.isInsideOfField n p = true)
    (hpath0 : ∃ pp rs, pp ∈ dest ∧ Pos.isInsideOfField n pp = true ∧
      pathOk n m knownOnly pp rs = true ∧ endPos pp rs = p ∧
      List.length rs + 1 = fstep + 1) :
    ∀ (ds : List Dir), (∀ d ∈ ds, d ∈ Along4) → ∀ (f : Field) (q : List (Pos × Nat)),
      SolveInvE n m dest knownOnly (some p) f q →
      fstep ≤ (n + 2) * cnt n f →
      SolveInvE n m dest knownOnly (some p)
        (ds.foldl (fun s d => expandDir n m knownOnly true fstep d (n + 2) p 1 s) (f, q)).1
        (ds.foldl (fun s d => expandDir n m knownOnly true fstep d (n + 2) p 1 s) (f, q)).2 ∧
      (∀ c, (ds.foldl (fun s d => expandDir n m knownOnly true fstep d (n + 2) p 1 s) (f, q)).1 c ≤ f c) ∧
      (∀ e ∈ q, e ∈ (ds.foldl (fun s d => expandDir n m knownOnly true fstep d (n + 2) p 1 s) (f, q)).2) ∧
      (∀ c, (ds.foldl (fun s d => expandDir n m knownOnly true fstep d (n + 2) p 1 s) (f, q)).1 c = f c ∨
        (c, (ds.foldl (fun s d => expandDir n m knownOnly true fstep d (n + 2) p 1 s) (f, q)).1 c) ∈
          (ds.foldl (fun s d => expandDir n m knownOnly true fstep d (n + 2) p 1 s) (f, q)).2) ∧
      cnt n f ≤ cnt n (ds.foldl (fun s d => expandDir n m knownOnly true fstep d (n + 2) p 1 s) (f, q)).1 ∧
      (∀ d ∈ ds, blocked n m knownOnly p d = false →
        (ds.foldl (fun s d => expandDir n m knownOnly true fstep d (n + 2) p 1 s) (f, q)).1 (posNext p d) ≤
          fstep + 1) := by
  intro ds
  induction ds with
  | nil =>
    intro _ f q H _
    exact ⟨H, fun c => le_refl _, fun e he => he, fun c => Or.inl rfl, le_refl _,
      fun d hd => absurd hd (by simp)⟩
  | cons d0 ds ih =>
    intro hds f q H hfb
    have hd0 : d0 ∈ Along4 := hds d0 (by simp)
    have E := expandDir_invE n m dest knownOnly p fstep d0 hd0 hn
      (n + 2) p 1 f q H hfb hin hpath0 (le_refl 1) (by omega)
    have hfb1 : fstep ≤ (n + 2) *
        cnt n (expandDir n m knownOnly true fstep d0 (n + 2) p 1 (f, q)).1 :=
      le_trans hfb (Nat.mul_le_mul_left _ E.2.2.2.2.1)
    have IH := ih (fun d hd => hds d (by simp [hd]))
      (expandDir n m knownOnly true fstep d0 (n + 2) p 1 (f, q)).1
      (expandDir n m knownOnly true fstep d0 (n + 2) p 1 (f, q)).2
      E.1 hfb1
    have hfold : ((d0 :: ds).foldl
        (fun s d => expandDir n m knownOnly true fstep d (n + 2) p 1 s) (f, q)) =
        (ds.foldl (fun s d => expandDir n m knownOnly true fstep d (n + 2) p 1 s)
          ((expandDir n m knownOnly true fstep d0 (n + 2) p 1 (f, q)).1,
           (expandDir n m knownOnly true fstep d0 (n + 2) p 1 (f, q)).2)) := by
      simp only [List.foldl_cons]
    rw [hfold]
    refine ⟨IH.1, ?_, ?_, ?_, le_trans E.2.2.2.2.1 IH.2.2.2.2.1, ?_⟩
    · intro c
      exact le_trans (IH.2.1 c) (E.2.1 c)
    · intro e he
      exact IH.2.2.1 e (E.2.2.1 e he)
    · intro c
      rcases IH.2.2.2.1 c with hc | hc
      · rw [hc]
        rcases E.2.2.2.1 c with hc2 | hc2
        · exact Or.inl hc2
        · exact Or.inr (IH.2.2.1 _ hc2)
      · exact Or.inr hc
    · intro d hd hbf
      rcases List.mem_cons.mp hd with rfl | hd'
      · refine le_trans (IH.2.1 (posNext p d)) ?_
        exact E.2.2.2.2.2 rfl (by omega) hbf
      · exact IH.2.2.2.2.2 d hd' hbf

/-- Whole-cell expansion (`expandAll`) at the popped value `f p`
preserves the invariant; afterwards every open cardinal neighbor of `p`
is within one simple-cost step of `f p`. -/
theorem expandAll_invE (n : Nat) (m : Maze) (dest : List Pos) (knownOnly : Bool)
    (p : Pos) (f : Field) (q : List (Pos × Nat)) (hn : n ≤ 32)
    (H : SolveInvE n m dest knownOnly (some p) f q)
    (hin : Pos.isInsideOfField n p = true)
    (hfin : f p ≠ STEP_MAX) :
    SolveInvE n m dest knownOnly (some p)
      (expandAll n m knownOnly true p (f p) (f, q)).1
      (expandAll n m knownOnly true p (f p) (f, q)).2 ∧
    (∀ c, (expandAll n m knownOnly true p (f p) (f, q)).1 c ≤ f c) ∧
    (∀ e ∈ q, e ∈ (expandAll n m knownOnly true p (f p) (f, q)).2) ∧
    (∀ c, (expandAll n m knownOnly true p (f p) (f, q)).1 c = f c ∨
      (c, (expandAll n m knownOnly true p (f p) (f, q)).1 c) ∈
        (expandAll n m knownOnly true p (f p) (f, q)).2) ∧
    (∀ d ∈ Along4, blocked n m knownOnly p d = false →
      (expandAll n m knownOnly true p (f p) (f, q)).1 (posNext p d) ≤ f p + 1) := by
  have hfb0 : f p ≤ (n + 2) * cnt n f := H.bounded p hin hfin
  have hpath0 : ∃ pp rs, pp ∈ dest ∧ Pos.isInsideOfField n pp = true ∧
      pathOk n m knownOnly pp rs = true ∧ endPos pp rs = p ∧
      List.length rs + 1 = f p + 1 := by
    rcases H.sound p hfin with ⟨pp, rs, h1, h2, h3, h4, h5⟩
    exact ⟨pp, rs, h1, h2, h3, h4, by omega⟩
  have E := expandFold_invE n m dest knownOnly p (f p) hn hin hpath0
    Along4 (fun d hd => hd) f q H hfb0
  exact ⟨E.1, E.2.1, E.2.2.1, E.2.2.2.1, E.2.2.2.2.2⟩

/-- Dropping the head entry of the queue keeps the invariant, provided
the head is stale (the cell has already been improved below the entry's
key). -/
theorem SolveInvE_drop_stale (n : Nat) (m : Maze) (dest : List Pos) (knownOnly : Bool)
    (f : Field) (p : Pos) (s : Nat) (q : List (Pos × Nat))
    (H : SolveInvE n m dest knownOnly none f ((p, s) :: q))
    (hstale : f p < s) :
    SolveInvE n m dest knownOnly none f q := by
  constructor
  · exact H.out_sentinel
  · exact H.le_max
  · intro e he; exact H.queue_ok e (by simp [he])
  · exact H.bounded
  · intro c hc1 hc2 hex
    rcases H.relaxed c hc1 hc2 hex with hs | hq
    · exact Or.inl hs
    · rcases List.mem_cons.mp hq with heq | hq'
      · rcases Prod.mk.injEq .. ▸ heq with ⟨h1, h2⟩
        subst h1
        omega
      · exact Or.inr hq'
  · exact H.sound

/-- Popping the head entry at its current value: the invariant holds over
the remaining queue with the popped cell excused. -/
theorem SolveInvE_pop (n : Nat) (m : Maze) (dest : List Pos) (knownOnly : Bool)
    (f : Field) (p : Pos) (s : Nat) (q : List (Pos × Nat))
    (H : SolveInvE n m dest knownOnly none f ((p, s) :: q)) :
    SolveInvE n m dest knownOnly (some p) f q := by
  constructor
  · exact H.out_sentinel
  · exact H.le_max
  · intro e he; exact H.queue_ok e (by simp [he])
  · exact H.bounded
  · intro c hc1 hc2 hex
    have hcp : c ≠ p := fun h => hex (by rw [h])
    rcases H.relaxed c hc1 hc2 (by simp) with hs | hq
    · exact Or.inl hs
    · rcases List.mem_cons.mp hq with heq | hq'
      · rcases Prod.mk.injEq .. ▸ heq with ⟨h1, h2⟩
        exact absurd h1 hcp
      · exact Or.inr hq'
  · exact H.sound

/-- The queue-draining loop of the simple-cost solver preserves the
invariant, provided the bounding rectangle contains every in-field cell
(so no pop is ever discarded by the rectangle test). -/
theorem updateLoop_invE (n : Nat) (m : Maze) (dest : List Pos) (knownOnly : Bool)
    (b : Box) (hn : n ≤ 32)
    (hbox : ∀ c : Pos, Pos.isInsideOfField n c = true → b.contains c = true) :
    ∀ (fuel : Nat) (q : List (Pos × Nat)) (f : Field),
      SolveInvE n m dest knownOnly none f q →
      SolveInvE n m dest knownOnly none
        (updateLoop n m knownOnly true b fuel q f).1
        (updateLoop n m knownOnly true b fuel q f).2 := by
  intro fuel
  induction fuel with
  | zero => intro q f H; exact H
  | succ fuel ih =>
    intro q f H
    match q with
    | [] => exact H
    | (p, s) :: q =>
      rcases H.queue_ok (p, s) (by simp) with ⟨hpin, hple, hsmax⟩
      have hcont : b.contains p = true := hbox p hpin
      have hstep1 : updateLoop n m knownOnly true b (fuel + 1) ((p, s) :: q) f =
          (if f p < s then updateLoop n m knownOnly true b fuel q f
           else updateLoop n m knownOnly true b fuel
             (expandAll n m knownOnly true p (f p) (f, q)).2
             (expandAll n m knownOnly true p (f p) (f, q)).1) := by
        simp [updateLoop, hcont]
      rw [hstep1]
      by_cases hstale : f p < s
      · simp only [hstale, if_true]
        exact ih q f (SolveInvE_drop_stale n m dest knownOnly f p s q H hstale)
      · simp only [hstale, if_false]
        have hfin : f p ≠ STEP_MAX := by
          have : f p ≤ s := hple
          unfold STEP_MAX at *
          omega
        have H' := SolveInvE_pop n m dest knownOnly f p s q H
        have E := expandAll_invE n m dest knownOnly p f q hn H' hpin hfin
        refine ih _ _ ?_
        constructor
        · exact E.1.out_sentinel
        · exact E.1.le_max
        · exact E.1.queue_ok
        · exact E.1.bounded
        · intro c hc1 hc2 _
          by_cases hcp : c = p
          · subst hcp
            rcases E.2.2.2.1 c with hcc | hcc
            · left
              intro d hd hbf
              rw [hcc]
              exact E.2.2.2.2 d hd hbf
            · exact Or.inr hcc
          · exact E.1.relaxed c hc1 hc2 (by simp [hcp])
        · exact E.1.sound

/-- Destinations keep value 0 through the whole solve. -/
theorem update_zero (n : Nat) (m : Maze) (dest : List Pos) (knownOnly simple : Bool)
    (fuel : Nat) (p : Pos) (hmem : p ∈ dest) (hin : Pos.isInsideOfField n p = true) :
    (update n m dest knownOnly simple fuel).1 p = 0 := by
  have h1 : (update n m dest knownOnly simple fuel).1 p ≤ (seedDest n dest).1 p := by
    unfold update
    exact updateLoop_le n m knownOnly simple (calcBox m dest) fuel _ _ p
  rw [seedDest_zero n dest p hmem hin] at h1
  omega

/-- Walking any valid path from a finite in-field cell over a drained
field: the final value grows by at most one per move and stays finite
(the invariant's growth bound keeps values far below the sentinel). -/
theorem pathWalk_le (n : Nat) (m : Maze) (dest : List Pos) (knownOnly : Bool)
    (f : Field) (hn : n ≤ 32)
    (H : SolveInvE n m dest knownOnly none f []) :
    ∀ (ds : List Dir) (c : Pos), Pos.isInsideOfField n c = true →
      f c ≠ STEP_MAX → pathOk n m knownOnly c ds = true →
      f (endPos c ds) ≤ f c + ds.length ∧ f (endPos c ds) ≠ STEP_MAX ∧
        Pos.isInsideOfField n (endPos c ds) = true := by
  intro ds
  induction ds with
  | nil =>
    intro c h1 h2 _
    exact ⟨by simp [endPos], h2, h1⟩
  | cons d ds ih =>
    intro c h1 h2 hp
    have hsplit : Along4.contains d = true ∧ blocked n m knownOnly c d = false ∧
        pathOk n m knownOnly (posNext c d) ds = true := by
      have hp' : (Along4.contains d && !(blocked n m knownOnly c d) &&
          pathOk n m knownOnly (posNext c d) ds) = true := hp
      simp only [Bool.and_eq_true, Bool.not_eq_true'] at hp'
      exact ⟨hp'.1.1, hp'.1.2, hp'.2⟩
    have hd : d ∈ Along4 := by
      have := hsplit.1
      simpa [Along4, List.contains_iff_exists_mem_beq, Nat.beq_eq] using this
    have hsat : sat1 n m knownOnly f c := by
      rcases H.relaxed c h1 h2 (by simp) with hs | hq
      · exact hs
      · cases hq
    have hstep : f (posNext c d) ≤ f c + 1 := hsat d hd hsplit.2.1
    have hbd : f c ≤ (n + 2) * cnt n f := H.bounded c h1 h2
    have hsmall : f c ≤ 34 * 1024 := by
      have h3 : cnt n f ≤ n * n := cnt_le_sq n f
      have h4 : (n + 2) * cnt n f ≤ 34 * 1024 :=
        Nat.mul_le_mul (show n + 2 ≤ 34 by omega)
          (le_trans h3 (Nat.mul_le_mul (show n ≤ 32 by omega) (show n ≤ 32 by omega)))
      omega
    have hnfin : f (posNext c d) ≠ STEP_MAX := by
      unfold STEP_MAX
      omega
    have hnin : Pos.isInsideOfField n (posNext c d) = true :=
      next_in_field n m knownOnly c d hd h1 hsplit.2.1
    have W := ih (posNext c d) hnin hnfin hsplit.2.2
    have hend : endPos c (d :: ds) = endPos (posNext c d) ds := rfl
    rw [hend]
    refine ⟨?_, W.2.1, W.2.2⟩
    refine le_trans W.1 ?_
    simp only [List.length_cons]
    omega

/-- C1 (amended): in simple-cost mode, when the derived bounding
rectangle covers the whole field and the queue has been drained, the
field holds exact shortest-path costs: every reachable cell's value is
finite, is realised by a valid path from a destination, and is a lower
bound on the cost of every such path (path costs are measured by the
claim's run decomposition, which in simple mode is the number of moves);
every unreachable cell holds the sentinel. -/
theorem C1_amended (n : Nat) (m : Maze) (dest : List Pos) (knownOnly : Bool) (fuel : Nat)
    (hn : n ≤ 32)
    (hbox : ∀ c : Pos, Pos.isInsideOfField n c = true →
      (calcBox m dest).contains c = true)
    (hdone : (update n m dest knownOnly true fuel).2 = []) :
    ∀ c : Pos,
      (reachable n m knownOnly dest c →
        (update n m dest knownOnly true fuel).1 c ≠ STEP_MAX ∧
        (∃ p ds, p ∈ dest ∧ Pos.isInsideOfField n p = true ∧
          pathOk n m knownOnly p ds = true ∧ endPos p ds = c ∧
          runCost true ds = (update n m dest knownOnly true fuel).1 c) ∧
        (∀ p ds, p ∈ dest → Pos.isInsideOfField n p = true →
          pathOk n m knownOnly p ds = true → endPos p ds = c →
          (update n m dest knownOnly true fuel).1 c ≤ runCost true ds)) ∧
      (¬ reachable n m knownOnly dest c →
        (update n m dest knownOnly true fuel).1 c = STEP_MAX) := by
  have Hloop := updateLoop_invE n m dest knownOnly (calcBox m dest) hn hbox fuel
    (seedDest n dest).2 (seedDest n dest).1 (seedDest_invE n m dest knownOnly)
  have H0 : SolveInvE n m dest knownOnly none
      (update n m dest knownOnly true fuel).1
      (update n m dest knownOnly true fuel).2 := Hloop
  rw [hdone] at H0
  intro c
  constructor
  · intro hreach
    rcases hreach with ⟨p, ds, hp1, hp2, hp3, hp4⟩
    have hz : (update n m dest knownOnly true fuel).1 p = 0 :=
      update_zero n m dest knownOnly true fuel p hp1 hp2
    have hfinp : (update n m dest knownOnly true fuel).1 p ≠ STEP_MAX := by
      rw [hz]; unfold STEP_MAX; omega
    have W := pathWalk_le n m dest knownOnly
      (update n m dest knownOnly true fuel).1 hn H0 ds p hp2 hfinp hp3
    rw [hp4] at W
    refine ⟨W.2.1, ?_, ?_⟩
    · rcases H0.sound c W.2.1 with ⟨p', ds', h1, h2, h3, h4, h5⟩
      refine ⟨p', ds', h1, h2, h3, h4, ?_⟩
      rw [runCost_simple]
      exact h5
    · intro p'' ds'' h1 h2 h3 h4
      have hz'' : (update n m dest knownOnly true fuel).1 p'' = 0 :=
        update_zero n m dest knownOnly true fuel p'' h1 h2
      have hfinp'' : (update n m dest knownOnly true fuel).1 p'' ≠ STEP_MAX := by
        rw [hz'']; unfold STEP_MAX; omega
      have W'' := pathWalk_le n m dest knownOnly
        (update n m dest knownOnly true fuel).1 hn H0 ds'' p'' h2 hfinp'' h3
      rw [h4] at W''
      rw [runCost_simple]
      have := W''.1
      omega
  · intro hunreach
    by_contra hfin
    rcases H0.sound c hfin with ⟨p, ds, h1, h2, h3, h4, _⟩
    exact hunreach ⟨p, ds, h1, h2, h3, h4⟩

/-- C1 (counterexample): on `cexMaze` with destinations `(1,0)` and
`(2,4)` and physical costs, the completed solve leaves 416 at the
reachable cell `(3,1)`, but the valid destination path North, East, East
(one turn then a 2-cell run) costs only `costTable[1] + costTable[2] =
363`, so the field value is not the minimum accumulated path cost: the
early break at `(2,1)` prevented the cheaper straight run from `(1,1)`
from being offered. -/
theorem C1_counterexample :
    (update 6 cexMaze cexDest false false 300).2 = [] ∧
    (update 6 cexMaze cexDest false false 300).1 ⟨3, 1⟩ = 416 ∧
    (⟨1, 0⟩ : Pos) ∈ cexDest ∧
    Pos.isInsideOfField 6 ⟨1, 0⟩ = true ∧
    pathOk 6 cexMaze false ⟨1, 0⟩ [2, 0, 0] = true ∧
    endPos ⟨1, 0⟩ [2, 0, 0] = ⟨3, 1⟩ ∧
    runCost false [2, 0, 0] = 363 ∧
    ¬ (update 6 cexMaze cexDest false false 300).1 ⟨3, 1⟩ ≤ 363 := by
  refine ⟨by decide, by decide, by decide, by decide, by decide, by decide,
    by decide, by decide⟩

/-- Witness for C1 (amended) on the open 4 by 4 grid in simple-cost mode:
the completed solve gives `(3,0)` its exact shortest distance. -/
theorem C1_amended_witness :
    4 ≤ 32 ∧
    (∀ c : Pos, Pos.isInsideOfField 4 c = true →
      (calcBox openMaze4 [⟨0, 0⟩]).contains c = true) ∧
    (update 4 openMaze4 [⟨0, 0⟩] false true 200).2 = [] ∧
    reachable 4 openMaze4 false [⟨0, 0⟩] ⟨3, 0⟩ ∧
    ((update 4 openMaze4 [⟨0, 0⟩] false true 200).1 ⟨3, 0⟩ ≠ STEP_MAX ∧
     (∃ p ds, p ∈ [(⟨0, 0⟩ : Pos)] ∧ Pos.isInsideOfField 4 p = true ∧
       pathOk 4 openMaze4 false p ds = true ∧ endPos p ds = ⟨3, 0⟩ ∧
       runCost true ds = (update 4 openMaze4 [⟨0, 0⟩] false true 200).1 ⟨3, 0⟩) ∧
     (∀ p ds, p ∈ [(⟨0, 0⟩ : Pos)] → Pos.isInsideOfField 4 p = true →
       pathOk 4 openMaze4 false p ds = true → endPos p ds = ⟨3, 0⟩ →
       (update 4 openMaze4 [⟨0, 0⟩] false true 200).1 ⟨3, 0⟩ ≤ runCost true ds)) := by
  have hbox : ∀ c : Pos, Pos.isInsideOfField 4 c = true →
      (calcBox openMaze4 [⟨0, 0⟩]).contains c = true := by
    intro c hc
    simp only [Pos.isInsideOfField, Bool.and_eq_true, decide_eq_true_eq] at hc
    simp only [calcBox, openMaze4, Box.contains, List.foldl_cons, List.foldl_nil,
      Bool.not_eq_true', Bool.or_eq_false_iff, decide_eq_false_iff_not, not_lt]
    refine ⟨⟨⟨?_, ?_⟩, ?_⟩, ?_⟩ <;> omega
  have hreach : reachable 4 openMaze4 false [⟨0, 0⟩] ⟨3, 0⟩ :=
    ⟨⟨0, 0⟩, [0, 0, 0], by decide, by decide, by decide, by decide⟩
  exact ⟨by omega, hbox, by decide, hreach,
    (C1_amended 4 openMaze4 [⟨0, 0⟩] false 200 (by omega) hbox (by decide) ⟨3, 0⟩).1 hreach⟩

/-!  The same invariant development for the no-early-break variant. -/

/-- The walk-to-wall expansion never increases any field value. -/
theorem expandDirFull_le (n : Nat) (m : Maze) (knownOnly simple : Bool) (focus_step : Nat)
    (d : Dir) :
    ∀ (fuel : Nat) (next : Pos) (i : Nat) (s : Field × List (Pos × Nat)) (c : Pos),
      (expandDirFull n m knownOnly simple focus_step d fuel next i s).1 c ≤ s.1 c := by
  intro fuel
  induction fuel with
  | zero => intro next i s c; exact le_refl _
  | succ fuel ih =>
    intro next i s c
    obtain ⟨f, q⟩ := s
    simp only [expandDirFull]
    by_cases hb : blocked n m knownOnly next d
    · simp [hb]
    · simp only [hb, Bool.false_eq_true, if_false]
      by_cases hle : f (posNext next d) ≤
          (focus_step + (if simple then i else stepTable i)) % 65536
      · simp only [hle, if_true]
        exact ih _ _ _ c
      · simp only [hle, if_false]
        refine le_trans (ih _ _ _ c) ?_
        simp only [setStep]
        by_cases hc : c = posNext next d
        · simp [hc]; omega
        · simp [hc]

/-- The walk-to-wall whole-cell expansion never increases any field
value. -/
theorem expandAllFull_le (n : Nat) (m : Maze) (knownOnly simple : Bool) (focus : Pos)
    (focus_step : Nat) (s : Field × List (Pos × Nat)) (c : Pos) :
    (expandAllFull n m knownOnly simple focus focus_step s).1 c ≤ s.1 c := by
  simp only [expandAllFull, Along4]
  obtain ⟨f, q⟩ := s
  simp only [List.foldl_cons, List.foldl_nil]
  refine le_trans (expandDirFull_le n m knownOnly simple focus_step 6 _ _ _ _ c) ?_
  refine le_trans (expandDirFull_le n m knownOnly simple focus_step 4 _ _ _ _ c) ?_
  refine le_trans (expandDirFull_le n m knownOnly simple focus_step 2 _ _ _ _ c) ?_
  exact expandDirFull_le n m knownOnly simple focus_step 0 _ _ _ _ c

/-- The walk-to-wall queue-draining loop never increases any field
value. -/
theorem updateLoopFull_le (n : Nat) (m : Maze) (knownOnly simple : Bool) (b : Box) :
    ∀ (fuel : Nat) (q : List (Pos × Nat)) (f : Field) (c : Pos),
      (updateLoopFull n m knownOnly simple b fuel q f).1 c ≤ f c := by
  intro fuel
  induction fuel with
  | zero => intro q f c; exact le_refl _
  | succ fuel ih =>
    intro q f c
    match q with
    | [] => exact le_refl _
    | (p, s) :: q =>
      simp only [updateLoopFull]
      by_cases h1 : b.contains p
      · simp only [h1, Bool.not_true, Bool.false_eq_true, if_false]
        by_cases h2 : f p < s
        · simp only [h2, if_true]; exact ih q f c
        · simp only [h2, if_false]
          exact le_trans (ih _ _ c) (expandAllFull_le n m knownOnly simple p (f p) (f, q) c)
      · simp only [h1]
        simp only [Bool.not_false, if_true]
        exact ih q f c

/-- Destinations keep value 0 through the whole walk-to-wall solve. -/
theorem updateFull_zero (n : Nat) (m : Maze) (dest : List Pos) (knownOnly simple : Bool)
    (fuel : Nat) (p : Pos) (hmem : p ∈ dest) (hin : Pos.isInsideOfField n p = true) :
    (updateFull n m dest knownOnly simple fuel).1 p = 0 := by
  have h1 : (updateFull n m dest knownOnly simple fuel).1 p ≤ (seedDest n dest).1 p := by
    unfold updateFull
    exact updateLoopFull_le n m knownOnly simple (calcBox m dest) fuel _ _ p
  rw [seedDest_zero n dest p hmem hin] at h1
  omega

/-- The walk-to-wall straight-run expansion preserves the invariant (the
analogue of `expandDir_invE`; a non-improving candidate skips the write
but continues the walk). -/
theorem expandDirFull_invE (n : Nat) (m : Maze) (dest : List Pos) (knownOnly : Bool)
    (focus : Pos) (fstep : Nat) (d : Dir) (hd : d ∈ Along4) (hn : n ≤ 32) :
    ∀ (fuel : Nat) (next : Pos) (i : Nat) (f : Field) (q : List (Pos × Nat)),
      SolveInvE n m dest knownOnly (some focus) f q →
      fstep ≤ (n + 2) * cnt n f →
      Pos.isInsideOfField n next = true →
      (∃ p rs, p ∈ dest ∧ Pos.isInsideOfField n p = true ∧
        pathOk n m knownOnly p rs = true ∧ endPos p rs = next ∧
        List.length rs + 1 = fstep + i) →
      1 ≤ i → i + fuel ≤ n + 3 →
      SolveInvE n m dest knownOnly (some focus)
        (expandDirFull n m knownOnly true fstep d fuel next i (f, q)).1
        (expandDirFull n m knownOnly true fstep d fuel next i (f, q)).2 ∧
      (∀ c, (expandDirFull n m knownOnly true fstep d fuel next i (f, q)).1 c ≤ f c) ∧
      (∀ e ∈ q, e ∈ (expandDirFull n m knownOnly true fstep d fuel next i (f, q)).2) ∧
      (∀ c, (expandDirFull n m knownOnly true fstep d fuel next i (f, q)).1 c = f c ∨
        (c, (expandDirFull n m knownOnly true fstep d fuel next i (f, q)).1 c) ∈
          (expandDirFull n m knownOnly true fstep d fuel next i (f, q)).2) ∧
      cnt n f ≤ cnt n (expandDirFull n m knownOnly true fstep d fuel next i (f, q)).1 ∧
      (i = 1 → 1 ≤ fuel → blocked n m knownOnly next d = false →
        (expandDirFull n m knownOnly true fstep d fuel next i (f, q)).1 (posNext next d) ≤
          fstep + 1) := by
  intro fuel
  induction fuel with
  | zero =>
    intro next i f q H _ _ _ _ _
    exact ⟨H, fun c => le_refl _, fun e he => he, fun c => Or.inl rfl, le_refl _,
      fun _ h _ => absurd h (by omega)⟩
  | succ fuel ih =>
    intro next i f q H hfb hnext hpath hi hif
    by_cases hb : blocked n m knownOnly next d
    · have hstep : expandDirFull n m knownOnly true fstep d (fuel + 1) next i (f, q) =
          (f, q) := by
        simp [expandDirFull, hb]
      rw [hstep]
      refine ⟨H, fun c => le_refl _, fun e he => he, fun c => Or.inl rfl, le_refl _, ?_⟩
      intro _ _ hbf
      rw [hbf] at hb
      exact absurd hb (by simp)
    · have hb' : blocked n m knownOnly next d = false := by
        cases hbb : blocked n m knownOnly next d
        · rfl
        · exact absurd hbb hb
      have hcnt_sq : cnt n f ≤ n * n := cnt_le_sq n f
      have hfs_small : fstep + i < 65536 := by
        have h1 : fstep ≤ (n + 2) * (n * n) :=
          le_trans hfb (Nat.mul_le_mul_left _ hcnt_sq)
        have ha : n + 2 ≤ 34 := by omega
        have hb2 : n * n ≤ 1024 :=
          Nat.mul_le_mul (show n ≤ 32 by omega) (show n ≤ 32 by omega)
        have h2 : (n + 2) * (n * n) ≤ 34 * 1024 := Nat.mul_le_mul ha hb2
        omega
      have hcand : (fstep + (if (true : Bool) then i else stepTable i)) % 65536 =
          fstep + i := by
        simp only [if_true]
        exact Nat.mod_eq_of_lt hfs_small
      have hnext'in : Pos.isInsideOfField n (posNext next d) = true :=
        next_in_field n m knownOnly next d hd hnext hb'
      have hpath1 : ∃ p rs, p ∈ dest ∧ Pos.isInsideOfField n p = true ∧
          pathOk n m knownOnly p rs = true ∧ endPos p rs = posNext next d ∧
          List.length rs + 1 = fstep + (i + 1) := by
        rcases hpath with ⟨p, rs, hp1, hp2, hp3, hp4, hp5⟩
        refine ⟨p, rs ++ [d], hp1, hp2, ?_, ?_, ?_⟩
        · exact pathOk_snoc n m knownOnly p rs d hp3 hd (by rw [hp4]; exact hb')
        · rw [endPos_append, hp4]
          rfl
        · simp only [List.length_append, List.length_cons, List.length_nil]
          omega
      by_cases hle : f (posNext next d) ≤
          (fstep + (if (true : Bool) then i else stepTable i)) % 65536
      · -- skip the write, continue the walk
        have IH := ih (posNext next d) (i + 1) f q H hfb hnext'in hpath1
          (by omega) (by omega)
        have hstep : expandDirFull n m knownOnly true fstep d (fuel + 1) next i (f, q) =
            expandDirFull n m knownOnly true fstep d fuel (posNext next d) (i + 1)
              (f, q) := by
          have hle2 : f (posNext next d) ≤ (fstep + i) % 65536 := by
            rw [Nat.mod_eq_of_lt hfs_small]
            rw [hcand] at hle
            exact hle
          simp only [expandDirFull, hb', Bool.false_eq_true, if_false, if_true, hle2]
        rw [hstep]
        refine ⟨IH.1, IH.2.1, IH.2.2.1, IH.2.2.2.1, IH.2.2.2.2.1, ?_⟩
        intro hi1 _ _
        refine le_trans (IH.2.1 (posNext next d)) ?_
        rw [hcand] at hle
        subst hi1
        exact hle
      · have hwlt : fstep + i < f (posNext next d) := by
          rw [hcand] at hle
          omega
        have hle' : ¬ f (posNext next d) ≤ fstep + i := by omega
        have hvne : fstep + i ≠ STEP_MAX := by
          have := H.le_max (posNext next d)
          unfold STEP_MAX at *
          omega
        have hbound : fstep + i ≤ (n + 2) * (cnt n f + 1) := by
          have : (n + 2) * (cnt n f + 1) = (n + 2) * cnt n f + (n + 2) :=
            Nat.mul_succ _ _
          omega
        have hpath' : ∃ p rs, p ∈ dest ∧ Pos.isInsideOfField n p = true ∧
            pathOk n m knownOnly p rs = true ∧ endPos p rs = posNext next d ∧
            List.length rs = fstep + i := by
          rcases hpath1 with ⟨p, rs, h1, h2, h3, h4, h5⟩
          exact ⟨p, rs, h1, h2, h3, h4, by omega⟩
        have H1 := SolveInvE_write n m dest knownOnly (some focus) f q
          (posNext next d) (fstep + i) H hnext'in hwlt hbound hpath'
        have hcnt1 : cnt n f ≤ cnt n (setStep f (posNext next d) (fstep + i)) :=
          cnt_mono_set n f (posNext next d) (fstep + i) hvne
        have hfb1 : fstep ≤ (n + 2) * cnt n (setStep f (posNext next d) (fstep + i)) :=
          le_trans hfb (Nat.mul_le_mul_left _ hcnt1)
        have IH := ih (posNext next d) (i + 1)
          (setStep f (posNext next d) (fstep + i))
          (qpush (posNext next d, fstep + i) q)
          H1 hfb1 hnext'in hpath1 (by omega) (by omega)
        have hstep : expandDirFull n m knownOnly true fstep d (fuel + 1) next i (f, q) =
            expandDirFull n m knownOnly true fstep d fuel (posNext next d) (i + 1)
              (setStep f (posNext next d) (fstep + i),
               qpush (posNext next d, fstep + i) q) := by
          simp only [expandDirFull, hb', Bool.false_eq_true, if_false, if_true,
            Nat.mod_eq_of_lt hfs_small, hle', if_false]
        rw [hstep]
        refine ⟨IH.1, ?_, ?_, ?_, le_trans hcnt1 IH.2.2.2.2.1, ?_⟩
        · intro c
          refine le_trans (IH.2.1 c) ?_
          exact setStep_le f (posNext next d) (fstep + i) (le_of_lt hwlt) c
        · intro e he
          exact IH.2.2.1 e ((qpush_mem _ q e).mpr (Or.inr he))
        · intro c
          rcases IH.2.2.2.1 c with hc | hc
          · rw [hc]
            by_cases hcn : c = posNext next d
            · subst hcn
              right
              rw [setStep_same]
              exact IH.2.2.1 _ ((qpush_mem _ q _).mpr (Or.inl rfl))
            · left
              exact setStep_other f (posNext next d) (fstep + i) c hcn
          · right
            exact hc
        · intro hi1 _ _
          refine le_trans (IH.2.1 (posNext next d)) ?_
          rw [setStep_same]
          omega

/-- Folding walk-to-wall expansions over a list of cardinal directions
preserves the invariant (analogue of `expandFold_invE`). -/
theorem expandFoldFull_invE (n : Nat) (m : Maze) (dest : List Pos) (knownOnly : Bool)
    (p : Pos) (fstep : Nat) (hn : n ≤ 32)
    (hin : Pos.isInsideOfField n p = true)
    (hpath0 : ∃ pp rs, pp ∈ dest ∧ Pos.isInsideOfField n pp = true ∧
      pathOk n m knownOnly pp rs = true ∧ endPos pp rs = p ∧
      List.length rs + 1 = fstep + 1) :
    ∀ (ds : List Dir), (∀ d ∈ ds, d ∈ Along4) → ∀ (f : Field) (q : List (Pos × Nat)),
      SolveInvE n m dest knownOnly (some p) f q →
      fstep ≤ (n + 2) * cnt n f →
      SolveInvE n m dest knownOnly (some p)
        (ds.foldl (fun s d => expandDirFull n m knownOnly true fstep d (n + 2) p 1 s) (f, q)).1
        (ds.foldl (fun s d => expandDirFull n m knownOnly true fstep d (n + 2) p 1 s) (f, q)).2 ∧
      (∀ c, (ds.foldl (fun s d => expandDirFull n m knownOnly true fstep d (n + 2) p 1 s) (f, q)).1 c ≤ f c) ∧
      (∀ e ∈ q, e ∈ (ds.foldl (fun s d => expandDirFull n m knownOnly true fstep d (n + 2) p 1 s) (f, q)).2) ∧
      (∀ c, (ds.foldl (fun s d => expandDirFull n m knownOnly true fstep d (n + 2) p 1 s) (f, q)).1 c = f c ∨
        (c, (ds.foldl (fun s d => expandDirFull n m knownOnly true fstep d (n + 2) p 1 s) (f, q)).1 c) ∈
          (ds.foldl (fun s d => expandDirFull n m knownOnly true fstep d (n + 2) p 1 s) (f, q)).2) ∧
      cnt n f ≤ cnt n (ds.foldl (fun s d => expandDirFull n m knownOnly true fstep d (n + 2) p 1 s) (f, q)).1 ∧
      (∀ d ∈ ds, blocked n m knownOnly p d = false →
        (ds.foldl (fun s d => expandDirFull n m knownOnly true fstep d (n + 2) p 1 s) (f, q)).1 (posNext p d) ≤
          fstep + 1) := by
  intro ds
  induction ds with
  | nil =>
    intro _ f q H _
    exact ⟨H, fun c => le_refl _, fun e he => he, fun c => Or.inl rfl, le_refl _,
      fun d hd => absurd hd (by simp)⟩
  | cons d0 ds ih =>
    intro hds f q H hfb
    have hd0 : d0 ∈ Along4 := hds d0 (by simp)
    have E := expandDirFull_invE n m dest knownOnly p fstep d0 hd0 hn
      (n + 2) p 1 f q H hfb hin hpath0 (le_refl 1) (by omega)
    have hfb1 : fstep ≤ (n + 2) *
        cnt n (expandDirFull n m knownOnly true fstep d0 (n + 2) p 1 (f, q)).1 :=
      le_trans hfb (Nat.mul_le_mul_left _ E.2.2.2.2.1)
    have IH := ih (fun d hd => hds d (by simp [hd]))
      (expandDirFull n m knownOnly true fstep d0 (n + 2) p 1 (f, q)).1
      (expandDirFull n m knownOnly true fstep d0 (n + 2) p 1 (f, q)).2
      E.1 hfb1
    have hfold : ((d0 :: ds).foldl
        (fun s d => expandDirFull n m knownOnly true fstep d (n + 2) p 1 s) (f, q)) =
        (ds.foldl (fun s d => expandDirFull n m knownOnly true fstep d (n + 2) p 1 s)
          ((expandDirFull n m knownOnly true fstep d0 (n + 2) p 1 (f, q)).1,
           (expandDirFull n m knownOnly true fstep d0 (n + 2) p 1 (f, q)).2)) := by
      simp only [List.foldl_cons]
    rw [hfold]
    refine ⟨IH.1, ?_, ?_, ?_, le_trans E.2.2.2.2.1 IH.2.2.2.2.1, ?_⟩
    · intro c
      exact le_trans (IH.2.1 c) (E.2.1 c)
    · intro e he
      exact IH.2.2.1 e (E.2.2.1 e he)
    · intro c
      rcases IH.2.2.2.1 c with hc | hc
      · rw [hc]
        rcases E.2.2.2.1 c with hc2 | hc2
        · exact Or.inl hc2
        · exact Or.inr (IH.2.2.1 _ hc2)
      · exact Or.inr hc
    · intro d hd hbf
      rcases List.mem_cons.mp hd with rfl | hd'
      · refine le_trans (IH.2.1 (posNext p d)) ?_
        exact E.2.2.2.2.2 rfl (by omega) hbf
      · exact IH.2.2.2.2.2 d hd' hbf

/-- Walk-to-wall whole-cell expansion at the popped value: analogue of
`expandAll_invE`. -/
theorem expandAllFull_invE (n : Nat) (m : Maze) (dest : List Pos) (knownOnly : Bool)
    (p : Pos) (f : Field) (q : List (Pos × Nat)) (hn : n ≤ 32)
    (H : SolveInvE n m dest knownOnly (some p) f q)
    (hin : Pos.isInsideOfField n p = true)
    (hfin : f p ≠ STEP_MAX) :
    SolveInvE n m dest knownOnly (some p)
      (expandAllFull n m knownOnly true p (f p) (f, q)).1
      (expandAllFull n m knownOnly true p (f p) (f, q)).2 ∧
    (∀ c, (expandAllFull n m knownOnly true p (f p) (f, q)).1 c ≤ f c) ∧
    (∀ e ∈ q, e ∈ (expandAllFull n m knownOnly true p (f p) (f, q)).2) ∧
    (∀ c, (expandAllFull n m knownOnly true p (f p) (f, q)).1 c = f c ∨
      (c, (expandAllFull n m knownOnly true p (f p) (f, q)).1 c) ∈
        (expandAllFull n m knownOnly true p (f p) (f, q)).2) ∧
    (∀ d ∈ Along4, blocked n m knownOnly p d = false →
      (expandAllFull n m knownOnly true p (f p) (f, q)).1 (posNext p d) ≤ f p + 1) := by
  have hfb0 : f p ≤ (n + 2) * cnt n f := H.bounded p hin hfin
  have hpath0 : ∃ pp rs, pp ∈ dest ∧ Pos.isInsideOfField n pp = true ∧
      pathOk n m knownOnly pp rs = true ∧ endPos pp rs = p ∧
      List.length rs + 1 = f p + 1 := by
    rcases H.sound p hfin with ⟨pp, rs, h1, h2, h3, h4, h5⟩
    exact ⟨pp, rs, h1, h2, h3, h4, by omega⟩
  have E := expandFoldFull_invE n m dest knownOnly p (f p) hn hin hpath0
    Along4 (fun d hd => hd) f q H hfb0
  exact ⟨E.1, E.2.1, E.2.2.1, E.2.2.2.1, E.2.2.2.2.2⟩

/-- The walk-to-wall queue-draining loop preserves the invariant
(analogue of `updateLoop_invE`). -/
theorem updateLoopFull_invE (n : Nat) (m : Maze) (dest : List Pos) (knownOnly : Bool)
    (b : Box) (hn : n ≤ 32)
    (hbox : ∀ c : Pos, Pos.isInsideOfField n c = true → b.contains c = true) :
    ∀ (fuel : Nat) (q : List (Pos × Nat)) (f : Field),
      SolveInvE n m dest knownOnly none f q →
      SolveInvE n m dest knownOnly none
        (updateLoopFull n m knownOnly true b fuel q f).1
        (updateLoopFull n m knownOnly true b fuel q f).2 := by
  intro fuel
  induction fuel with
  | zero => intro q f H; exact H
  | succ fuel ih =>
    intro q f H
    match q with
    | [] => exact H
    | (p, s) :: q =>
      rcases H.queue_ok (p, s) (by simp) with ⟨hpin, hple, hsmax⟩
      have hcont : b.contains p = true := hbox p hpin
      have hstep1 : updateLoopFull n m knownOnly true b (fuel + 1) ((p, s) :: q) f =
          (if f p < s then updateLoopFull n m knownOnly true b fuel q f
           else updateLoopFull n m knownOnly true b fuel
             (expandAllFull n m knownOnly true p (f p) (f, q)).2
             (expandAllFull n m knownOnly true p (f p) (f, q)).1) := by
        simp [updateLoopFull, hcont]
      rw [hstep1]
      by_cases hstale : f p < s
      · simp only [hstale, if_true]
        exact ih q f (SolveInvE_drop_stale n m dest knownOnly f p s q H hstale)
      · simp only [hstale, if_false]
        have hfin : f p ≠ STEP_MAX := by
          have : f p ≤ s := hple
          unfold STEP_MAX at *
          omega
        have H' := SolveInvE_pop n m dest knownOnly f p s q H
        have E := expandAllFull_invE n m dest knownOnly p f q hn H' hpin hfin
        refine ih _ _ ?_
        constructor
        · exact E.1.out_sentinel
        · exact E.1.le_max
        · exact E.1.queue_ok
        · exact E.1.bounded
        · intro c hc1 hc2 _
          by_cases hcp : c = p
          · subst hcp
            rcases E.2.2.2.1 c with hcc | hcc
            · left
              intro d hd hbf
              rw [hcc]
              exact E.2.2.2.2 d hd hbf
            · exact Or.inr hcc
          · exact E.1.relaxed c hc1 hc2 (by simp [hcp])
        · exact E.1.sound

/-- C2 (counterexample): on `cexMaze` with physical costs, the completed
early-break solve and the completed walk-to-wall variant disagree at cell
`(3,1)`: 416 versus 363. -/
theorem C2_counterexample :
    (update 6 cexMaze cexDest false false 300).2 = [] ∧
    (updateFull 6 cexMaze cexDest false false 300).2 = [] ∧
    (update 6 cexMaze cexDest false false 300).1 ⟨3, 1⟩ = 416 ∧
    (updateFull 6 cexMaze cexDest false false 300).1 ⟨3, 1⟩ = 363 ∧
    (update 6 cexMaze cexDest false false 300).1 ⟨3, 1⟩ ≠
      (updateFull 6 cexMaze cexDest false false 300).1 ⟨3, 1⟩ := by
  refine ⟨by decide, by decide, by decide, by decide, by decide⟩

/-- C2 (amended): in simple-cost mode, when the derived bounding
rectangle covers the whole field, the early-break solve and the
walk-to-wall variant produce the same field at queue exhaustion: both
compute the exact shortest number of moves from the destinations. -/
theorem C2_amended (n : Nat) (m : Maze) (dest : List Pos) (knownOnly : Bool)
    (fuel1 fuel2 : Nat) (hn : n ≤ 32)
    (hbox : ∀ c : Pos, Pos.isInsideOfField n c = true →
      (calcBox m dest).contains c = true)
    (hdone1 : (update n m dest knownOnly true fuel1).2 = [])
    (hdone2 : (updateFull n m dest knownOnly true fuel2).2 = []) :
    ∀ c : Pos, (update n m dest knownOnly true fuel1).1 c =
      (updateFull n m dest knownOnly true fuel2).1 c := by
  have HE0 : SolveInvE n m dest knownOnly none
      (update n m dest knownOnly true fuel1).1
      (update n m dest knownOnly true fuel1).2 :=
    updateLoop_invE n m dest knownOnly (calcBox m dest) hn hbox fuel1
      (seedDest n dest).2 (seedDest n dest).1 (seedDest_invE n m dest knownOnly)
  have HF0 : SolveInvE n m dest knownOnly none
      (updateFull n m dest knownOnly true fuel2).1
      (updateFull n m dest knownOnly true fuel2).2 :=
    updateLoopFull_invE n m dest knownOnly (calcBox m dest) hn hbox fuel2
      (seedDest n dest).2 (seedDest n dest).1 (seedDest_invE n m dest knownOnly)
  rw [hdone1] at HE0
  rw [hdone2] at HF0
  intro c
  by_cases hE : (update n m dest knownOnly true fuel1).1 c = STEP_MAX
  · by_cases hF : (updateFull n m dest knownOnly true fuel2).1 c = STEP_MAX
    · rw [hE, hF]
    · rcases HF0.sound c hF with ⟨p, ds, h1, h2, h3, h4, _⟩
      have hzE : (update n m dest knownOnly true fuel1).1 p = 0 :=
        update_zero n m dest knownOnly true fuel1 p h1 h2
      have hfinE : (update n m dest knownOnly true fuel1).1 p ≠ STEP_MAX := by
        rw [hzE]; unfold STEP_MAX; omega
      have W := pathWalk_le n m dest knownOnly
        (update n m dest knownOnly true fuel1).1 hn HE0 ds p h2 hfinE h3
      rw [h4] at W
      exact absurd hE W.2.1
  · by_cases hF : (updateFull n m dest knownOnly true fuel2).1 c = STEP_MAX
    · rcases HE0.sound c hE with ⟨p, ds, h1, h2, h3, h4, _⟩
      have hzF : (updateFull n m dest knownOnly true fuel2).1 p = 0 :=
        updateFull_zero n m dest knownOnly true fuel2 p h1 h2
      have hfinF : (updateFull n m dest knownOnly true fuel2).1 p ≠ STEP_MAX := by
        rw [hzF]; unfold STEP_MAX; omega
      have W := pathWalk_le n m dest knownOnly
        (updateFull n m dest knownOnly true fuel2).1 hn HF0 ds p h2 hfinF h3
      rw [h4] at W
      exact absurd hF W.2.1
    · rcases HE0.sound c hE with ⟨pE, dsE, hE1, hE2, hE3, hE4, hE5⟩
      rcases HF0.sound c hF with ⟨pF, dsF, hF1, hF2, hF3, hF4, hF5⟩
      have hzE : (update n m dest knownOnly true fuel1).1 pF = 0 :=
        update_zero n m dest knownOnly true fuel1 pF hF1 hF2
      have hzF : (updateFull n m dest knownOnly true fuel2).1 pE = 0 :=
        updateFull_zero n m dest knownOnly true fuel2 pE hE1 hE2
      have hfinE : (update n m dest knownOnly true fuel1).1 pF ≠ STEP_MAX := by
        rw [hzE]; unfold STEP_MAX; omega
      have hfinF : (updateFull n m dest knownOnly true fuel2).1 pE ≠ STEP_MAX := by
        rw [hzF]; unfold STEP_MAX; omega
      have WE := pathWalk_le n m dest knownOnly
        (update n m dest knownOnly true fuel1).1 hn HE0 dsF pF hF2 hfinE hF3
      have WF := pathWalk_le n m dest knownOnly
        (updateFull n m dest knownOnly true fuel2).1 hn HF0 dsE pE hE2 hfinF hE3
      rw [hF4] at WE
      rw [hE4] at WF
      have h1 := WE.1
      have h2 := WF.1
      rw [hzE] at h1
      rw [hzF] at h2
      omega

/-- Witness for C2 (amended) on the open 4 by 4 grid in simple-cost
mode: both completed solves agree at `(3,0)`. -/
theorem C2_amended_witness :
    4 ≤ 32 ∧
    (∀ c : Pos, Pos.isInsideOfField 4 c = true →
      (calcBox openMaze4 [⟨0, 0⟩]).contains c = true) ∧
    (update 4 openMaze4 [⟨0, 0⟩] false true 200).2 = [] ∧
    (updateFull 4 openMaze4 [⟨0, 0⟩] false true 200).2 = [] ∧
    (update 4 openMaze4 [⟨0, 0⟩] false true 200).1 ⟨3, 0⟩ =
      (updateFull 4 openMaze4 [⟨0, 0⟩] false true 200).1 ⟨3, 0⟩ := by
  have hbox : ∀ c : Pos, Pos.isInsideOfField 4 c = true →
      (calcBox openMaze4 [⟨0, 0⟩]).contains c = true := by
    intro c hc
    simp only [Pos.isInsideOfField, Bool.and_eq_true, decide_eq_true_eq] at hc
    simp only [calcBox, openMaze4, Box.contains, List.foldl_cons, List.foldl_nil,
      Bool.not_eq_true', Bool.or_eq_false_iff, decide_eq_false_iff_not, not_lt]
    refine ⟨⟨⟨?_, ?_⟩, ?_⟩, ?_⟩ <;> omega
  exact ⟨by omega, hbox, by decide, by decide,
    C2_amended 4 openMaze4 [⟨0, 0⟩] false 200 200 (by omega) hbox (by decide) (by decide)
      ⟨3, 0⟩⟩

end MazeLib
